import Mathlib

/-!
Verification development for the media-organiser repository.

The Python core under `src/core` and `src/utils` is shallowly embedded here:

* `src/core/date_extractor.py` — `DATE_PATTERNS`, `extract_from_filename`,
  `extract_date` (filename stems are `List Char`; the external EXIF reader and
  the filesystem `stat` are modelled as `Option Date` inputs).
* `src/core/duplicate_detector.py` — `scan_files`, `find_duplicates` over a
  pre-hashed input list (the hasher collaborator returns `Option Nat`, `none`
  meaning the per-file hash raised and the file is skipped).
* `src/utils/file_operations.py` — `get_unique_filename`, `safe_move_file`,
  `scan_media_files` (over a rose tree of directories in on-disk scandir
  order) and `remove_empty_directories`.
* `src/core/organiser.py` — `OrganizeMode`, `_get_destination_directory`,
  `_organize_files`, `_process_duplicates` and `process`, as explicit state
  transformers over a list of files plus a directory tree.

Machine integers do not occur: all Python ints involved are non-negative and
unbounded (`Nat`).
-/

set_option autoImplicit false

namespace MediaOrganiser

/-! ### Calendar dates

`datetime` values are reduced to their (year, month, day) triple; that is all
the organiser reads from them.  `validDate` captures exactly the values
`datetime.datetime(year, month, day)` accepts: `MINYEAR = 1`,
`MAXYEAR = 9999`, real month lengths with Gregorian leap years. -/

structure Date where
  year : Nat
  month : Nat
  day : Nat
deriving DecidableEq

def isLeapYear (y : Nat) : Bool :=
  y % 4 = 0 && (y % 100 ≠ 0 || y % 400 = 0)

def daysInMonth (y m : Nat) : Nat :=
  if m = 2 then (if isLeapYear y then 29 else 28)
  else if m = 4 || m = 6 || m = 9 || m = 11 then 30
  else 31

def validDate (y m d : Nat) : Bool :=
  1 ≤ y && y ≤ 9999 && 1 ≤ m && m ≤ 12 && 1 ≤ d && d ≤ daysInMonth y m

def Date.valid (dt : Date) : Bool :=
  validDate dt.year dt.month dt.day

/-- Model of `datetime.datetime(y, m, d)`: raises `ValueError` (modelled `none`) unless
the triple is a real calendar date. -/
def mkDatetime (y m d : Nat) : Option Date :=
  if validDate y m d then some ⟨y, m, d⟩ else none

/-! ### Decimal numerals

`f-string` rendering of non-negative ints (`f"\x7bdate.year\x7d"`,
`f"\x7bcounter\x7d"`).  The recursion is fuelled so that it reduces inside the
kernel; fuel `n` always suffices for the number `n`. -/

def numeralRev : Nat → Nat → List Char
  | 0, _ => []
  | fuel + 1, n => if n = 0 then [] else Nat.digitChar (n % 10) :: numeralRev fuel (n / 10)

def numeral (n : Nat) : List Char :=
  if n = 0 then ['0'] else (numeralRev n n).reverse

/-- Model of `f"\x7bm:02d\x7d"`: zero-pad to width two. -/
def pad2 (n : Nat) : List Char :=
  if n < 10 then '0' :: numeral n else numeral n

/-- Little-endian decimal valuation, the proof-side inverse of `numeralRev`. -/
def unrevVal : List Char → Nat
  | [] => 0
  | c :: s => (c.toNat - 48) + 10 * unrevVal s

theorem digitChar_toNat (k : Nat) (hk : k < 10) : (Nat.digitChar k).toNat = 48 + k := by
  interval_cases k <;> rfl

theorem unrevVal_numeralRev : ∀ fuel n, n ≤ fuel → unrevVal (numeralRev fuel n) = n := by
  intro fuel
  induction fuel with
  | zero => intro n hn; interval_cases n; rfl
  | succ f ih =>
    intro n hn
    by_cases h0 : n = 0
    · subst h0; simp [numeralRev, unrevVal]
    · have hdiv : n / 10 ≤ f := by
        have : n / 10 < n := Nat.div_lt_self (Nat.pos_of_ne_zero h0) (by omega)
        omega
      have hmod : n % 10 < 10 := Nat.mod_lt _ (by omega)
      simp only [numeralRev, h0, if_false, unrevVal, ih _ hdiv]
      rw [digitChar_toNat _ hmod]
      omega

theorem numeralRev_self_inj {a b : Nat} (h : numeralRev a a = numeralRev b b) : a = b := by
  have ha := unrevVal_numeralRev a a (le_refl a)
  have hb := unrevVal_numeralRev b b (le_refl b)
  rw [← ha, ← hb, h]

theorem numeral_inj {a b : Nat} (h : numeral a = numeral b) : a = b := by
  by_cases h0 : a = 0 <;> by_cases h1 : b = 0
  · omega
  · exfalso
    simp only [numeral, h0, h1, if_true, if_false] at h
    have : numeralRev b b = ['0'] := by
      have := congrArg List.reverse h
      simpa using this.symm
    have hb := unrevVal_numeralRev b b (le_refl b)
    rw [this] at hb
    simp [unrevVal] at hb
    omega
  · exfalso
    simp only [numeral, h0, h1, if_true, if_false] at h
    have : numeralRev a a = ['0'] := by
      have := congrArg List.reverse h
      simpa using this
    have ha := unrevVal_numeralRev a a (le_refl a)
    rw [this] at ha
    simp [unrevVal] at ha
    omega
  · simp only [numeral, h0, h1, if_false] at h
    exact numeralRev_self_inj (List.reverse_injective h)

theorem numeral_ne_nil (n : Nat) : numeral n ≠ [] := by
  by_cases h0 : n = 0
  · subst h0; simp [numeral]
  · simp only [numeral, h0, if_false]
    intro hcontra
    have : numeralRev n n = [] := by simpa using congrArg List.reverse hcontra
    cases n with
    | zero => exact h0 rfl
    | succ m =>
      simp only [numeralRev] at this
      split at this
      · omega
      · exact List.cons_ne_nil _ _ this

/-! ### Filename stems and suffixes

`pathlib.PurePath.stem` / `.suffix`: the suffix starts at the last dot of the
final component, provided that dot is neither the first nor the last
character. -/

def lastDot : List Char → Option Nat
  | [] => none
  | c :: cs =>
    match lastDot cs with
    | some i => some (i + 1)
    | none => if c = '.' then some 0 else none

/-- Model of `(Path(name).stem, Path(name).suffix)`. -/
def splitName (nm : List Char) : List Char × List Char :=
  match lastDot nm with
  | some i => if 0 < i ∧ i + 1 < nm.length then (nm.take i, nm.drop i) else (nm, [])
  | none => (nm, [])

theorem splitName_append (nm : List Char) : (splitName nm).1 ++ (splitName nm).2 = nm := by
  unfold splitName
  cases h : lastDot nm with
  | none => simp
  | some i =>
    by_cases hcond : 0 < i ∧ i + 1 < nm.length
    · simp [hcond, List.take_append_drop]
    · simp [hcond]

def lowerName (s : List Char) : List Char := s.map Char.toLower

/-! ### `DateExtractor.DATE_PATTERNS` — the regular expressions

Each pattern of `src/core/date_extractor.py` is a fixed shape: digit runs of
exact width, a separator class `[-_]`, and literal `IMG`/`VID` markers.  A
matcher consumes such a shape from the head of a character list and returns
the three captured groups; `research` gives `re.search` semantics (the match
at the leftmost feasible start position — these patterns contain no
variable-width parts, so the engine is deterministic at a given start). -/

def takeDigits : Nat → List Char → Option (List Char × List Char)
  | 0, s => some ([], s)
  | _ + 1, [] => none
  | n + 1, c :: s =>
    if c.isDigit then (takeDigits n s).map (fun p => (c :: p.1, p.2)) else none

def isSepCh (c : Char) : Bool := c = '-' || c = '_'

def takeSep : List Char → Option (List Char)
  | [] => none
  | c :: s => if isSepCh c then some s else none

def takeLit (lit : Char) : List Char → Option (List Char)
  | [] => none
  | c :: s => if c = lit then some s else none

/-- The three captured groups of one pattern. -/
abbrev Groups := List Char × List Char × List Char

abbrev Matcher := List Char → Option Groups

/-- Model of `(\d{4})[-_](\d{2})[-_](\d{2})` anchored at the head. -/
def matchYmdSep : Matcher := fun s => do
  let (g1, s) ← takeDigits 4 s
  let s ← takeSep s
  let (g2, s) ← takeDigits 2 s
  let s ← takeSep s
  let (g3, _) ← takeDigits 2 s
  pure (g1, g2, g3)

/-- Model of `(\d{4})(\d{2})(\d{2})` anchored at the head. -/
def matchYmdCompact : Matcher := fun s => do
  let (g1, s) ← takeDigits 4 s
  let (g2, s) ← takeDigits 2 s
  let (g3, _) ← takeDigits 2 s
  pure (g1, g2, g3)

/-- Model of `(\d{2})[-_](\d{2})[-_](\d{4})` anchored at the head. -/
def matchDmySep : Matcher := fun s => do
  let (g1, s) ← takeDigits 2 s
  let s ← takeSep s
  let (g2, s) ← takeDigits 2 s
  let s ← takeSep s
  let (g3, _) ← takeDigits 4 s
  pure (g1, g2, g3)

/-- Model of `IMG[_-](\d{4})(\d{2})(\d{2})` anchored at the head. -/
def matchImg : Matcher := fun s => do
  let s ← takeLit 'I' s
  let s ← takeLit 'M' s
  let s ← takeLit 'G' s
  let s ← takeSep s
  matchYmdCompact s

/-- Model of `VID[_-](\d{4})(\d{2})(\d{2})` anchored at the head. -/
def matchVid : Matcher := fun s => do
  let s ← takeLit 'V' s
  let s ← takeLit 'I' s
  let s ← takeLit 'D' s
  let s ← takeSep s
  matchYmdCompact s

/-- Model of `re.search`: try the matcher at every start position, leftmost first. -/
def research (m : Matcher) : List Char → Option Groups
  | [] => m []
  | c :: s =>
    match m (c :: s) with
    | some r => some r
    | none => research m s

/-! ### `datetime.strptime` for the three formats the extractor uses

CPython compiles a format to a regular expression (`_strptime.TimeRE`):
`%Y ↦ \d{4}`, `%m ↦ 1[0-2]|0[1-9]|[1-9]`,
`%d ↦ 3[01]|[12]\d|0[1-9]|[1-9]`, matched from the start with backtracking,
requiring full consumption, after which `datetime(...)` validates the
calendar date once (no re-matching on a construction error).  The component
parsers below return candidate parses in the engine's alternation order. -/

def digitsToNat (g : List Char) : Nat :=
  g.foldl (fun a c => a * 10 + (c.toNat - 48)) 0

/-- Model of `%Y`: exactly four digits. -/
def pYear (s : List Char) : List (Nat × List Char) :=
  match takeDigits 4 s with
  | some (g, rest) => [(digitsToNat g, rest)]
  | none => []

/-- Model of `%m`: `1[0-2]|0[1-9]|[1-9]`, alternatives in order. -/
def pMonth (s : List Char) : List (Nat × List Char) :=
  (match s with
   | '1' :: c :: rest => if '0' ≤ c && c ≤ '2' then [(10 + (c.toNat - 48), rest)] else []
   | '0' :: c :: rest => if '1' ≤ c && c ≤ '9' then [(c.toNat - 48, rest)] else []
   | _ => []) ++
  (match s with
   | c :: rest => if '1' ≤ c && c ≤ '9' then [(c.toNat - 48, rest)] else []
   | _ => [])

/-- Model of `%d`: `3[01]|[12]\d|0[1-9]|[1-9]`, alternatives in order. -/
def pDay (s : List Char) : List (Nat × List Char) :=
  (match s with
   | '3' :: c :: rest => if c = '0' || c = '1' then [(30 + (c.toNat - 48), rest)] else []
   | '1' :: c :: rest => if c.isDigit then [(10 + (c.toNat - 48), rest)] else []
   | '2' :: c :: rest => if c.isDigit then [(20 + (c.toNat - 48), rest)] else []
   | '0' :: c :: rest => if '1' ≤ c && c ≤ '9' then [(c.toNat - 48, rest)] else []
   | _ => []) ++
  (match s with
   | c :: rest => if '1' ≤ c && c ≤ '9' then [(c.toNat - 48, rest)] else []
   | _ => [])

/-- A literal character in the format string. -/
def pLit (lit : Char) (s : List Char) : List (List Char) :=
  match s with
  | c :: rest => if c = lit then [rest] else []
  | [] => []

/-- The second argument of `datetime.strptime` in `_extract_from_filename`. -/
inductive Fmt where
  | ymdDash
  | ymdCompact
  | dmyDash
deriving DecidableEq

/-- All full-consumption regex matches of the format, in backtracking order. -/
def fmtMatches (fmt : Fmt) (s : List Char) : List (Nat × Nat × Nat) :=
  match fmt with
  | .ymdDash => do
    let (y, s) ← pYear s
    let s ← pLit '-' s
    let (m, s) ← pMonth s
    let s ← pLit '-' s
    let (d, s) ← pDay s
    if s = [] then pure (y, m, d) else []
  | .ymdCompact => do
    let (y, s) ← pYear s
    let (m, s) ← pMonth s
    let (d, s) ← pDay s
    if s = [] then pure (y, m, d) else []
  | .dmyDash => do
    let (d, s) ← pDay s
    let s ← pLit '-' s
    let (m, s) ← pMonth s
    let s ← pLit '-' s
    let (y, s) ← pYear s
    if s = [] then pure (y, m, d) else []

/-- Model of `datetime.strptime(s, fmt)`: the first regex match, then one calendar
validation by the `datetime` constructor; any failure raises (`none`). -/
def strptime (fmt : Fmt) (s : List Char) : Option Date :=
  match (fmtMatches fmt s).head? with
  | some (y, m, d) => mkDatetime y m d
  | none => none

/-- Model of `'-'.join(match.groups())`. -/
def joinGroups (g : Groups) : List Char :=
  g.1 ++ '-' :: g.2.1 ++ '-' :: g.2.2

/-- Model of `DateExtractor.DATE_PATTERNS`, in priority order. -/
def DATE_PATTERNS : List (Matcher × Fmt) :=
  [(matchYmdSep, .ymdDash),
   (matchYmdCompact, .ymdCompact),
   (matchDmySep, .dmyDash),
   (matchImg, .ymdCompact),
   (matchVid, .ymdCompact)]

/-- The loop body of `DateExtractor._extract_from_filename`: on a regex match
whose joined groups fail `strptime` (`ValueError`), `continue` to the next
pattern. -/
def extractPatterns : List (Matcher × Fmt) → List Char → Option Date
  | [], _ => none
  | (pat, fmt) :: rest, stem =>
    match research pat stem with
    | some g =>
      match strptime fmt (joinGroups g) with
      | some d => some d
      | none => extractPatterns rest stem
    | none => extractPatterns rest stem

/-- Model of `DateExtractor._extract_from_filename`, applied to `file_path.stem`. -/
def extract_from_filename (stem : List Char) : Option Date :=
  extractPatterns DATE_PATTERNS stem

/-! ### `DateExtractor.extract_date`

The EXIF reader (`_extract_from_exif`, external Pillow code behind a
`try/except` that yields `None` on any failure) and the filesystem
modification time (`_extract_from_modification_time`) enter as `Option Date`
parameters.  `datetime` objects are always truthy, so `if date:` is a
`some`-test. -/

def IMAGE_EXTENSIONS : List (List Char) :=
  [".jpg".data, ".jpeg".data, ".png".data, ".gif".data,
   ".bmp".data, ".tiff".data, ".webp".data, ".heic".data]

/-- Model of `DateExtractor._is_image`, applied to `file_path.suffix`. -/
def is_image (suffix : List Char) : Bool :=
  IMAGE_EXTENSIONS.contains (lowerName suffix)

/-- Model of `DateExtractor.extract_date` for a file with stem `stem`, suffix
`suffix`, EXIF result `exifDate` and stat result `mtimeDate`. -/
def extract_date (pillow : Bool) (stem suffix : List Char)
    (exifDate mtimeDate : Option Date) : Option Date :=
  match (if pillow && is_image suffix then exifDate else none) with
  | some d => some d
  | none =>
    match extract_from_filename stem with
    | some d => some d
    | none => mtimeDate


/-! ### Paths and files

A path is its directory (a list of segments below the tree root) plus its
final component.  A file carries the run-relevant attributes of a
`MediaFile`: the hasher outcome (`none` when `calculate_file_hash` raises),
the EXIF reader outcome and the stat outcome. -/

structure FPath where
  dir : List (List Char)
  nm : List Char
deriving DecidableEq

structure FFile where
  path : FPath
  hashv : Option Nat
  exif : Option Date
  mtime : Option Date
deriving DecidableEq

def FFile.withPath (f : FFile) (p : FPath) : FFile :=
  ⟨p, f.hashv, f.exif, f.mtime⟩

def pathsOf (fs : List FFile) : List FPath := fs.map FFile.path

/-! ### `get_unique_filename`

The candidate sequence is the original path followed by
`parent / stem_counter suffix` for `counter = 1, 2, ...`; the `while
file_path.exists()` loop returns the first candidate not on disk.  The loop
is fuelled; `fs.length + 1` candidates always contain a free one because the
candidates are pairwise distinct. -/

def uniqCand (p : FPath) : Nat → FPath
  | 0 => p
  | c + 1 => ⟨p.dir, (splitName p.nm).1 ++ '_' :: numeral (c + 1) ++ (splitName p.nm).2⟩

def guAux (occupied : List FPath) (p : FPath) : Nat → Nat → FPath
  | c, 0 => uniqCand p c
  | c, fuel + 1 =>
    if uniqCand p c ∈ occupied then guAux occupied p (c + 1) fuel else uniqCand p c

/-- Function `get_unique_filename` of `src/utils/file_operations.py`, with the
set of paths that exist on disk passed explicitly. -/
def get_unique_filename (occupied : List FPath) (p : FPath) : FPath :=
  guAux occupied p 0 (occupied.length + 1)

theorem uniqCand_dir (p : FPath) (c : Nat) : (uniqCand p c).dir = p.dir := by
  cases c <;> rfl

theorem uniqCand_inj (p : FPath) {a b : Nat} (h : uniqCand p a = uniqCand p b) : a = b := by
  have hnm := congrArg FPath.nm h
  match a, b with
  | 0, 0 => rfl
  | 0, b + 1 =>
    exfalso
    simp only [uniqCand] at hnm
    have hlen := congrArg List.length hnm
    have hsplit := congrArg List.length (splitName_append p.nm)
    have hne : (numeral (b + 1)).length ≠ 0 := by
      simpa using numeral_ne_nil (b + 1)
    simp [List.length_append] at hlen hsplit
    omega
  | a + 1, 0 =>
    exfalso
    simp only [uniqCand] at hnm
    have hlen := congrArg List.length hnm
    have hsplit := congrArg List.length (splitName_append p.nm)
    have hne : (numeral (a + 1)).length ≠ 0 := by
      simpa using numeral_ne_nil (a + 1)
    simp [List.length_append] at hlen hsplit
    omega
  | a + 1, b + 1 =>
    simp only [uniqCand] at hnm
    have h1 : (splitName p.nm).1 ++ ('_' :: (numeral (a + 1) ++ (splitName p.nm).2)) =
        (splitName p.nm).1 ++ ('_' :: (numeral (b + 1) ++ (splitName p.nm).2)) := by
      simpa [List.append_assoc] using hnm
    have h2 : numeral (a + 1) ++ (splitName p.nm).2 =
        numeral (b + 1) ++ (splitName p.nm).2 := by
      have := List.append_cancel_left h1
      simpa using this
    have h3 : numeral (a + 1) = numeral (b + 1) := List.append_cancel_right h2
    have := numeral_inj h3
    omega

theorem guAux_spec (occupied : List FPath) (p : FPath) :
    ∀ fuel c, (∃ i, i < fuel ∧ uniqCand p (c + i) ∉ occupied) →
      ∃ n, guAux occupied p c fuel = uniqCand p n ∧ c ≤ n ∧
        uniqCand p n ∉ occupied ∧ ∀ k, c ≤ k → k < n → uniqCand p k ∈ occupied := by
  intro fuel
  induction fuel with
  | zero => intro c ⟨i, hi, _⟩; omega
  | succ f ih =>
    intro c ⟨i, hi, hfree⟩
    by_cases hc : uniqCand p c ∈ occupied
    · have hi0 : i ≠ 0 := by
        intro h0; subst h0; simp at hfree; exact hfree hc
      have ⟨n, hres, hcn, hfr, hall⟩ := ih (c + 1) ⟨i - 1, by omega, by
        have : c + 1 + (i - 1) = c + i := by omega
        rw [this]; exact hfree⟩
      refine ⟨n, ?_, by omega, hfr, ?_⟩
      · simpa [guAux, hc] using hres
      · intro k hk1 hk2
        rcases Nat.eq_or_lt_of_le hk1 with h | h
        · subst h; exact hc
        · exact hall k h hk2
    · exact ⟨c, by simp [guAux, hc], le_refl c, hc, by omega⟩

theorem exists_free_cand (occupied : List FPath) (p : FPath) :
    ∃ i, i < occupied.length + 1 ∧ uniqCand p i ∉ occupied := by
  by_contra hall
  push_neg at hall
  have hsub : (List.range (occupied.length + 1)).map (uniqCand p) ⊆ occupied := by
    intro x hx
    obtain ⟨i, hi, rfl⟩ := List.mem_map.mp hx
    exact hall i (List.mem_range.mp hi)
  have hinj : Function.Injective (uniqCand p) := fun _ _ hab => uniqCand_inj p hab
  have hnd : ((List.range (occupied.length + 1)).map (uniqCand p)).Nodup :=
    (List.nodup_range _).map hinj
  have hlen := (hnd.subperm hsub).length_le
  simp at hlen

theorem get_unique_filename_spec (occupied : List FPath) (p : FPath) :
    ∃ n, get_unique_filename occupied p = uniqCand p n ∧
      uniqCand p n ∉ occupied ∧ ∀ k, k < n → uniqCand p k ∈ occupied := by
  obtain ⟨n, hres, _, hfr, hall⟩ :=
    guAux_spec occupied p (occupied.length + 1) 0
      (by simpa using exists_free_cand occupied p)
  exact ⟨n, hres, hfr, fun k hk => hall k (Nat.zero_le k) hk⟩

/-! ### `safe_move_file`

Validation (`validate_path(source, must_exist=True)`) raises when the source
is gone — the move reports `none` and the caller counts an error.  Directory
creation has no observable effect on the file list.  When the destination
exists the final name comes from `get_unique_filename`; `shutil.move` then
relocates the file (attributes preserved, `st_mtime` included). -/

def safe_move_file (fs : List FFile) (source destination : FPath) :
    Option (List FFile × FPath) :=
  if source ∈ pathsOf fs then
    let dest :=
      if destination ∈ pathsOf fs then get_unique_filename (pathsOf fs) destination
      else destination
    some (fs.map (fun f => if f.path = source then f.withPath dest else f), dest)
  else none

theorem safe_move_dest_free {fs : List FFile} {source destination : FPath}
    {fs' : List FFile} {dest : FPath}
    (h : safe_move_file fs source destination = some (fs', dest)) :
    dest ∉ pathsOf fs := by
  unfold safe_move_file at h
  by_cases hs : source ∈ pathsOf fs
  · simp only [hs, if_true, Option.some.injEq, Prod.mk.injEq] at h
    by_cases hd : destination ∈ pathsOf fs
    · obtain ⟨n, hspec, hfr, _⟩ := get_unique_filename_spec (pathsOf fs) destination
      rw [← h.2]
      simpa [hd, hspec] using hfr
    · rw [← h.2]; simp [hd]
  · simp [hs] at h

theorem safe_move_fs {fs : List FFile} {source destination : FPath}
    {fs' : List FFile} {dest : FPath}
    (h : safe_move_file fs source destination = some (fs', dest)) :
    fs' = fs.map (fun f => if f.path = source then f.withPath dest else f) := by
  unfold safe_move_file at h
  by_cases hs : source ∈ pathsOf fs
  · simp only [hs, if_true, Option.some.injEq, Prod.mk.injEq] at h
    rw [← h.1, ← h.2]
  · simp [hs] at h

theorem safe_move_length {fs : List FFile} {source destination : FPath}
    {fs' : List FFile} {dest : FPath}
    (h : safe_move_file fs source destination = some (fs', dest)) :
    fs'.length = fs.length := by
  rw [safe_move_fs h]; simp

theorem safe_move_isSome (fs : List FFile) (source destination : FPath)
    (hs : source ∈ pathsOf fs) :
    ∃ fs' dest, safe_move_file fs source destination = some (fs', dest) := by
  unfold safe_move_file
  simp [hs]

/-! ### `DuplicateDetector`

The hasher runs first, outside the detector, producing an
`Option Nat` per path; `scan_files` folds the results into the insertion
ordered `hash_map` (a Python `dict` preserves insertion order; appending to a
`defaultdict(list)` bucket preserves arrival order), skipping files whose
hash raised.  `find_duplicates` walks the groups in map order and collects
every member after the first of each group with more than one member. -/

def insertHash : List (Nat × List FPath) → Nat → FPath → List (Nat × List FPath)
  | [], h, p => [(h, [p])]
  | (h', ps) :: rest, h, p =>
    if h' = h then (h', ps ++ [p]) :: rest else (h', ps) :: insertHash rest h p

def scanAux : List (Nat × List FPath) → List (FPath × Option Nat) → List (Nat × List FPath)
  | m, [] => m
  | m, (p, some h) :: rest => scanAux (insertHash m h p) rest
  | m, (_, none) :: rest => scanAux m rest

/-- Method `DuplicateDetector.scan_files` over pre-hashed inputs; a `none`
hash is the logged-and-skipped per-file failure. -/
def scan_files (files : List (FPath × Option Nat)) : List (Nat × List FPath) :=
  scanAux [] files

/-- Method `DuplicateDetector.find_duplicates`: all but the first member of
every group with more than one member, in map order. -/
def find_duplicates (m : List (Nat × List FPath)) : List FPath :=
  m.foldl (fun acc g => if 1 < g.2.length then acc ++ g.2.tail else acc) []

/-- The members of the input carrying hash `h`, in arrival order. -/
def hashGroup (h : Nat) (files : List (FPath × Option Nat)) : List FPath :=
  (files.filter (fun x => x.2 = some h)).map Prod.fst


/-! ### Correctness lemmas for the duplicate detector -/

/-- Lookup of a key in the ordered hash map (first matching group). -/
def lookupG (h : Nat) : List (Nat × List FPath) → List FPath
  | [] => []
  | (h', ps) :: rest => if h' = h then ps else lookupG h rest

def keysOf (m : List (Nat × List FPath)) : List Nat := m.map Prod.fst

theorem lookupG_insertHash (m : List (Nat × List FPath)) (h h' : Nat) (p : FPath) :
    lookupG h (insertHash m h' p) =
      if h' = h then lookupG h m ++ [p] else lookupG h m := by
  induction m with
  | nil =>
    by_cases hk : h' = h <;> simp [insertHash, lookupG, hk]
  | cons g rest ih =>
    obtain ⟨k, ps⟩ := g
    by_cases hk : k = h'
    · subst hk
      by_cases hh : k = h
      · subst hh; simp [insertHash, lookupG]
      · simp [insertHash, lookupG, hh]
    · by_cases hh : k = h
      · subst hh
        have hne : h' ≠ k := fun hc => hk hc.symm
        simp [insertHash, lookupG, hk, hne]
      · simp [insertHash, lookupG, hk, hh, ih]

theorem lookupG_scanAux (L : List (FPath × Option Nat)) :
    ∀ m h, lookupG h (scanAux m L) = lookupG h m ++ hashGroup h L := by
  induction L with
  | nil => intro m h; simp [scanAux, hashGroup]
  | cons x rest ih =>
    intro m h
    obtain ⟨p, oh⟩ := x
    cases oh with
    | none => simp [scanAux, hashGroup, List.filter_cons, ih]
    | some k =>
      by_cases hk : k = h
      · subst hk
        simp [scanAux, ih, lookupG_insertHash, hashGroup, List.filter_cons]
      · simp [scanAux, ih, lookupG_insertHash, hk, hashGroup, List.filter_cons,
          Option.some.injEq]

theorem lookupG_scan_files (L : List (FPath × Option Nat)) (h : Nat) :
    lookupG h (scan_files L) = hashGroup h L := by
  have := lookupG_scanAux L [] h
  simpa [scan_files, lookupG] using this

theorem keysOf_insertHash (m : List (Nat × List FPath)) (h : Nat) (p : FPath) :
    keysOf (insertHash m h p) =
      if h ∈ keysOf m then keysOf m else keysOf m ++ [h] := by
  induction m with
  | nil => simp [insertHash, keysOf]
  | cons g rest ih =>
    obtain ⟨k, ps⟩ := g
    by_cases hk : k = h
    · subst hk; simp [insertHash, keysOf]
    · have hne : h ≠ k := fun hc => hk hc.symm
      simp only [insertHash, hk, if_false, keysOf, List.map_cons]
      have hrw : List.map Prod.fst (insertHash rest h p) = keysOf (insertHash rest h p) := rfl
      rw [hrw, ih]
      by_cases hm : h ∈ keysOf rest
      · simp only [keysOf] at hm
        simp [List.mem_cons, hm, hne, keysOf]
      · simp only [keysOf] at hm
        simp [List.mem_cons, hm, hne, keysOf]

theorem keys_nodup_insertHash {m : List (Nat × List FPath)} (h : Nat) (p : FPath)
    (hnd : (keysOf m).Nodup) : (keysOf (insertHash m h p)).Nodup := by
  rw [keysOf_insertHash]
  by_cases hm : h ∈ keysOf m
  · simpa [hm] using hnd
  · simp only [hm, if_false]
    exact List.Nodup.append hnd (List.nodup_singleton h)
      (fun a ha hb => hm (by rwa [List.mem_singleton.mp hb] at ha))

theorem keys_nodup_scanAux (L : List (FPath × Option Nat)) :
    ∀ m, (keysOf m).Nodup → (keysOf (scanAux m L)).Nodup := by
  induction L with
  | nil => intro m hm; simpa [scanAux] using hm
  | cons x rest ih =>
    intro m hm
    obtain ⟨p, oh⟩ := x
    cases oh with
    | none => exact ih m hm
    | some k => exact ih _ (keys_nodup_insertHash k p hm)

theorem scan_files_keys_nodup (L : List (FPath × Option Nat)) :
    (keysOf (scan_files L)).Nodup :=
  keys_nodup_scanAux L [] (by simp [keysOf])

theorem lookupG_of_mem {m : List (Nat × List FPath)} {k : Nat} {ps : List FPath}
    (hnd : (keysOf m).Nodup) (hmem : (k, ps) ∈ m) : lookupG k m = ps := by
  induction m with
  | nil => cases hmem
  | cons g rest ih =>
    obtain ⟨k0, ps0⟩ := g
    have hnd2 : k0 ∉ keysOf rest ∧ (keysOf rest).Nodup := by
      have h2 := hnd
      simp only [keysOf, List.map_cons, List.nodup_cons] at h2
      exact h2
    rcases List.mem_cons.mp hmem with heq | hin
    · obtain ⟨h1, h2⟩ : k = k0 ∧ ps = ps0 := by simpa using heq
      subst h1; subst h2
      simp [lookupG]
    · have hk0 : k0 ≠ k := by
        intro hc
        subst hc
        exact hnd2.1 (List.mem_map.mpr ⟨(k0, ps), hin, rfl⟩)
      simp [lookupG, hk0, ih hnd2.2 hin]

theorem scan_files_group_eq {L : List (FPath × Option Nat)} {g : Nat × List FPath}
    (hg : g ∈ scan_files L) : g.2 = hashGroup g.1 L := by
  have := lookupG_of_mem (scan_files_keys_nodup L) (show (g.1, g.2) ∈ scan_files L from hg)
  rw [← this, lookupG_scan_files]

/-- The contribution of one group to `find_duplicates`. -/
def dupsOfGroup (g : Nat × List FPath) : List FPath :=
  if 1 < g.2.length then g.2.tail else []

theorem find_duplicates_eq (m : List (Nat × List FPath)) :
    find_duplicates m = (m.map dupsOfGroup).flatten := by
  suffices hgen : ∀ acc, m.foldl (fun acc g => if 1 < g.2.length then acc ++ g.2.tail else acc) acc =
      acc ++ (m.map dupsOfGroup).flatten by
    simpa [find_duplicates] using hgen []
  induction m with
  | nil => intro acc; simp
  | cons g rest ih =>
    intro acc
    by_cases hlen : 1 < g.2.length <;>
      simp [dupsOfGroup, hlen, ih, List.append_assoc]

theorem mem_dupsOfGroup {g : Nat × List FPath} {p : FPath} (hp : p ∈ dupsOfGroup g) :
    p ∈ g.2 := by
  unfold dupsOfGroup at hp
  split at hp
  · exact List.mem_of_mem_tail hp
  · cases hp

theorem mem_hashGroup {L : List (FPath × Option Nat)} {h : Nat} {p : FPath} :
    p ∈ hashGroup h L ↔ (p, some h) ∈ L := by
  constructor
  · intro hp
    obtain ⟨x, hx, rfl⟩ := List.mem_map.mp hp
    have := List.mem_filter.mp hx
    have hx2 : x.2 = some h := by simpa using this.2
    have : (x.1, x.2) ∈ L := by simpa using this.1
    rw [hx2] at this
    exact this
  · intro hp
    exact List.mem_map.mpr ⟨(p, some h), List.mem_filter.mpr ⟨hp, by simp⟩, rfl⟩

theorem hashGroup_disjoint {L : List (FPath × Option Nat)} {h h' : Nat} {p : FPath}
    (hnd : (L.map Prod.fst).Nodup) (hne : h ≠ h')
    (h1 : p ∈ hashGroup h L) (h2 : p ∈ hashGroup h' L) : False := by
  have m1 := mem_hashGroup.mp h1
  have m2 := mem_hashGroup.mp h2
  have heq := List.inj_on_of_nodup_map hnd m1 m2 rfl
  have hsnd : some h = some h' := congrArg Prod.snd heq
  exact hne (Option.some.inj hsnd)

theorem dups_filter_aux (L : List (FPath × Option Nat)) (h : Nat)
    (hnd : (L.map Prod.fst).Nodup) :
    ∀ m, (∀ g ∈ m, g.2 = hashGroup g.1 L) → (keysOf m).Nodup →
      lookupG h m = hashGroup h L →
      ((m.map dupsOfGroup).flatten.filter (fun p => p ∈ hashGroup h L)) =
        (hashGroup h L).tail := by
  intro m
  induction m with
  | nil =>
    intro _ _ hlook
    simp only [lookupG] at hlook
    simp [← hlook]
  | cons g rest ih =>
    intro hgroups hkeys hlook
    obtain ⟨k, ps⟩ := g
    have hps : ps = hashGroup k L := hgroups (k, ps) (List.mem_cons_self _ _)
    have hconskeys : keysOf ((k, ps) :: rest) = k :: keysOf rest := rfl
    rw [hconskeys, List.nodup_cons] at hkeys
    have hknotin : k ∉ keysOf rest := hkeys.1
    have hkeys' : (keysOf rest).Nodup := hkeys.2
    simp only [List.map_cons, List.flatten_cons, List.filter_append]
    by_cases hk : k = h
    · subst hk
      have hlookup : ps = hashGroup k L := hps
      have hmain : (dupsOfGroup (k, ps)).filter (fun p => p ∈ hashGroup k L) =
          (hashGroup k L).tail := by
        by_cases hlen : 1 < ps.length
        · have : dupsOfGroup (k, ps) = ps.tail := by simp [dupsOfGroup, hlen]
          rw [this, ← hlookup]
          apply List.filter_eq_self.mpr
          intro a ha
          simpa [hlookup] using List.mem_of_mem_tail ha
        · have hd : dupsOfGroup (k, ps) = [] := by simp [dupsOfGroup, hlen]
          have ht : ps.tail = [] := by
            cases ps with
            | nil => rfl
            | cons a t =>
              cases t with
              | nil => rfl
              | cons b t2 => simp at hlen
          rw [hd, ← hlookup, ht]
          rfl
      have hrest : ((rest.map dupsOfGroup).flatten.filter
          (fun p => p ∈ hashGroup k L)) = [] := by
        apply List.filter_eq_nil_iff.mpr
        intro p hp
        obtain ⟨l, hl, hpl⟩ := List.mem_flatten.mp hp
        obtain ⟨g', hg', rfl⟩ := List.mem_map.mp hl
        have hg2 : g'.2 = hashGroup g'.1 L := hgroups g' (List.mem_cons_of_mem _ hg')
        have hpg : p ∈ hashGroup g'.1 L := hg2 ▸ mem_dupsOfGroup hpl
        have hgk : g'.1 ≠ k := by
          intro hc
          apply hknotin
          rw [← hc]
          exact List.mem_map.mpr ⟨g', hg', rfl⟩
        simp only [decide_eq_true_eq]
        intro hmem
        exact hashGroup_disjoint hnd hgk hpg hmem
      rw [hmain, hrest, List.append_nil]
    · have hfirst : (dupsOfGroup (k, ps)).filter (fun p => p ∈ hashGroup h L) = [] := by
        apply List.filter_eq_nil_iff.mpr
        intro p hp
        have hpg : p ∈ hashGroup k L := hps ▸ mem_dupsOfGroup hp
        simp only [decide_eq_true_eq]
        intro hmem
        exact hashGroup_disjoint hnd hk hpg hmem
      have hlook' : lookupG h rest = hashGroup h L := by
        simpa [lookupG, hk] using hlook
      rw [hfirst, ih (fun g hg => hgroups g (List.mem_cons_of_mem _ hg)) hkeys' hlook']
      rfl


/-! ### The directory tree

A directory holds subdirectories and plain files, each list in the on-disk
enumeration order that `os.scandir` reports (an order the OS chooses; nothing
in the repository sorts it).  `walkEntries` reproduces the order of
`Path.rglob("*")` restricted to regular files: the CPython recursive-wildcard
selector yields, for every directory in depth-first pre-order, the matching
children of that directory in `scandir` order; directory entries are then
discarded by the `is_file()` test in `scan_media_files`, so only the relative
order of file entries is observable. -/

inductive DTree where
  | node (dname : List Char) (subs : List DTree) (fils : List (List Char))

def DTree.dnameOf : DTree → List Char
  | .node n _ _ => n

mutual
/-- File paths produced by the recursive walk, root prefix `pre`. -/
def walkEntries (pre : List (List Char)) : DTree → List FPath
  | .node _ subs fils =>
    fils.map (fun f => ⟨pre, f⟩) ++ walkSubs pre subs
/-- The walk over a directory's subdirectories, in stored order. -/
def walkSubs (pre : List (List Char)) : List DTree → List FPath
  | [] => []
  | t :: ts => walkEntries (pre ++ [t.dnameOf]) t ++ walkSubs pre ts
end

/-- The default extension list of `scan_media_files`. -/
def MEDIA_EXTENSIONS : List (List Char) :=
  [".jpg".data, ".jpeg".data, ".png".data, ".gif".data,
   ".bmp".data, ".tiff".data, ".webp".data, ".heic".data,
   ".mp4".data, ".avi".data, ".mov".data, ".mkv".data,
   ".wmv".data, ".flv".data, ".webm".data, ".m4v".data]

def isMediaPath (p : FPath) : Bool :=
  MEDIA_EXTENSIONS.contains (lowerName (splitName p.nm).2)

/-- Function `scan_media_files` of `src/utils/file_operations.py` with the
default extensions: every regular file of the walk whose lowercased suffix is
a recognised media extension, in walk order. -/
def scan_media_files (tree : DTree) : List FPath :=
  (walkEntries [] tree).filter isMediaPath

/-! ### `remove_empty_directories`

`os.walk(root, topdown=False)` visits every directory bottom-up (all
descendants before their parent); at each visit the code re-lists the
directory (`current_dir.iterdir()`), removes it if the live listing is empty,
and unlinks-then-removes it if the only live entry is a `.DS_Store` file.
The bottom-up visit is the structural recursion below: prune all
subdirectories, then judge the parent on its surviving contents.  A removed
directory yields `none`. -/

def DS_STORE : List Char := ".DS_Store".data

mutual
def remove_empty_directories : DTree → Option DTree × Nat
  | .node n subs fils =>
    let r := pruneSubdirs subs
    if r.1.isEmpty && fils.isEmpty then (none, r.2 + 1)
    else if r.1.isEmpty && fils = [DS_STORE] then (none, r.2 + 1)
    else (some (.node n r.1 fils), r.2)
def pruneSubdirs : List DTree → List DTree × Nat
  | [] => ([], 0)
  | t :: ts =>
    let r := remove_empty_directories t
    let rs := pruneSubdirs ts
    match r.1 with
    | none => (rs.1, r.2 + rs.2)
    | some t' => (t' :: rs.1, r.2 + rs.2)
end

mutual
/-- Semantic characterisation: a tree vanishes under pruning exactly when
every directory in it carries no plain files apart from a sole `.DS_Store`. -/
def prunable : DTree → Bool
  | .node _ subs fils =>
    (fils.isEmpty || fils = [DS_STORE]) && allPrunable subs
def allPrunable : List DTree → Bool
  | [] => true
  | t :: ts => prunable t && allPrunable ts
end

mutual
/-- The number of directories in a tree, the root included. -/
def dirCount : DTree → Nat
  | .node _ subs _ => 1 + dirCountList subs
def dirCountList : List DTree → Nat
  | [] => 0
  | t :: ts => dirCount t + dirCountList ts
end

/-! ### Tree editing used by moves and deletions -/

def treeRemoveFile : List (List Char) → List Char → DTree → DTree
  | [], nm, .node n subs fils => .node n subs (fils.erase nm)
  | s :: rest, nm, .node n subs fils =>
    .node n (subs.map (fun t => if t.dnameOf = s then treeRemoveFile rest nm t else t)) fils

def treeAddFile : List (List Char) → List Char → DTree → DTree
  | [], nm, .node n subs fils => .node n subs (fils ++ [nm])
  | s :: rest, nm, .node n subs fils =>
    if subs.any (fun t => t.dnameOf = s) then
      .node n (subs.map (fun t => if t.dnameOf = s then treeAddFile rest nm t else t)) fils
    else
      .node n (subs ++ [treeAddFile rest nm (.node s [] [])]) fils


/-! ### The organiser (`src/core/organiser.py`)

A run's world is the list of files (attributes per `FFile`) together with the
directory tree; moves and deletions update both.  The `pillow` flag is the
module-level `PILLOW_AVAILABLE`. -/

inductive OrganizeMode where
  | none
  | year
  | year_month
  | year_month_day
deriving DecidableEq

/-- Method `MediaOrganiser._get_destination_directory`, with the tree root as
the empty segment list. -/
def get_destination_directory (root : List (List Char)) (mode : OrganizeMode)
    (d : Date) : List (List Char) :=
  match mode with
  | .year => root ++ [numeral d.year]
  | .year_month => root ++ [numeral d.year, pad2 d.month]
  | .year_month_day => root ++ [numeral d.year, pad2 d.month, pad2 d.day]
  | .none => root

/-- The EXIF reader's outcome for path `p` (opening a missing file raises
inside `_extract_from_exif`, which returns `None`). -/
def exifOf (fs : List FFile) (p : FPath) : Option Date :=
  (fs.find? (fun f => f.path = p)).bind FFile.exif

/-- The `stat` outcome for path `p` (a missing file makes
`_extract_from_modification_time` return `None`). -/
def mtimeOf (fs : List FFile) (p : FPath) : Option Date :=
  (fs.find? (fun f => f.path = p)).bind FFile.mtime

/-- Call of `self.date_extractor.extract_date(file_path)` inside
`_organize_files`: the stem and suffix come from the path string, the EXIF
and mtime outcomes from the file on disk. -/
def extract_date_at (pillow : Bool) (fs : List FFile) (p : FPath) : Option Date :=
  extract_date pillow (splitName p.nm).1 (splitName p.nm).2 (exifOf fs p) (mtimeOf fs p)

/-- Date extraction as a function of one file record alone. -/
def extractOfFile (pillow : Bool) (f : FFile) : Option Date :=
  extract_date pillow (splitName f.path.nm).1 (splitName f.path.nm).2 f.exif f.mtime

structure OrgState where
  fs : List FFile
  tree : DTree
  organized : Nat
  errors : Nat
  trace : List (FPath × FPath)

/-- One iteration of the `for file_path in files` loop of
`MediaOrganiser._organize_files`. -/
def organize_step (mode : OrganizeMode) (root : List (List Char)) (pillow dry : Bool)
    (st : OrgState) (p : FPath) : OrgState :=
  match extract_date_at pillow st.fs p with
  | none => st
  | some d =>
    let dest_dir := get_destination_directory root mode d
    if p.dir = dest_dir then st
    else if dry then ⟨st.fs, st.tree, st.organized + 1, st.errors, st.trace⟩
    else
      match safe_move_file st.fs p ⟨dest_dir, p.nm⟩ with
      | Option.none => ⟨st.fs, st.tree, st.organized, st.errors + 1, st.trace⟩
      | some (fs', dest) =>
        ⟨fs', treeAddFile dest.dir dest.nm (treeRemoveFile p.dir p.nm st.tree),
          st.organized + 1, st.errors, st.trace ++ [(p, dest)]⟩

/-- Method `MediaOrganiser._organize_files`. -/
def organize_files (mode : OrganizeMode) (root : List (List Char)) (pillow dry : Bool)
    (st : OrgState) (files : List FPath) : OrgState :=
  files.foldl (organize_step mode root pillow dry) st

/-- The hasher's outcome for path `p` (`calculate_file_hash` raises on a
missing or unreadable file). -/
def hashOf (fs : List FFile) (p : FPath) : Option Nat :=
  (fs.find? (fun f => f.path = p)).bind FFile.hashv

structure DedupResult where
  fs : List FFile
  tree : DTree
  found : Nat
  removed : Nat
  errs : Nat

/-- The removal loop of `_process_duplicates`: `safe_delete_file` validates
existence (an absent file raises, is logged and counted as an error), then
unlinks. -/
def delete_dups (fs : List FFile) (tree : DTree) :
    List FPath → List FFile × DTree × Nat × Nat
  | [] => (fs, tree, 0, 0)
  | p :: rest =>
    if p ∈ pathsOf fs then
      let r := delete_dups (fs.filter (fun f => f.path ≠ p))
        (treeRemoveFile p.dir p.nm tree) rest
      (r.1, r.2.1, r.2.2.1 + 1, r.2.2.2)
    else
      let r := delete_dups fs tree rest
      (r.1, r.2.1, r.2.2.1, r.2.2.2 + 1)

/-- Method `MediaOrganiser._process_duplicates`: hash the batch, group, list
the duplicates, and either report (dry run) or delete them. -/
def process_duplicates (fs : List FFile) (tree : DTree) (media : List FPath)
    (dry : Bool) : DedupResult :=
  let dups := find_duplicates (scan_files (media.map (fun p => (p, hashOf fs p))))
  if dups.isEmpty then ⟨fs, tree, 0, 0, 0⟩
  else if dry then ⟨fs, tree, dups.length, 0, 0⟩
  else
    let r := delete_dups fs tree dups
    ⟨r.1, r.2.1, dups.length, r.2.2.1, r.2.2.2⟩

structure RunStats where
  total : Nat
  dupFound : Nat
  dupRemoved : Nat
  organized : Nat
  emptyRemoved : Nat
  errors : Nat
deriving DecidableEq

/-- Method `MediaOrganiser.process`: scan once, optionally deduplicate and
refresh the working list by existence, optionally organise, and prune empty
directories unless the run is dry. -/
def process (mode : OrganizeMode) (remove_duplicates dry_run pillow : Bool)
    (fs : List FFile) (tree : DTree) : List FFile × Option DTree × RunStats :=
  let media := scan_media_files tree
  if media.isEmpty then (fs, some tree, ⟨media.length, 0, 0, 0, 0, 0⟩)
  else
    let dd := if remove_duplicates then process_duplicates fs tree media dry_run
              else ⟨fs, tree, 0, 0, 0⟩
    let media1 := if remove_duplicates then media.filter (fun p => p ∈ pathsOf dd.fs)
                  else media
    let org := if mode ≠ OrganizeMode.none then
                 organize_files mode [] pillow dry_run ⟨dd.fs, dd.tree, 0, 0, []⟩ media1
               else ⟨dd.fs, dd.tree, 0, 0, []⟩
    let pr := if !dry_run then remove_empty_directories org.tree else (some org.tree, 0)
    (org.fs, pr.1,
      ⟨media.length, dd.found, dd.removed, org.organized, pr.2, dd.errs + org.errors⟩)


/-! ### Date-resolution theorems -/

theorem strptime_valid {fmt : Fmt} {s : List Char} {d : Date}
    (h : strptime fmt s = some d) : d.valid = true := by
  unfold strptime at h
  cases hm : (fmtMatches fmt s).head? with
  | none => rw [hm] at h; cases h
  | some t =>
    obtain ⟨y, m, dd⟩ := t
    rw [hm] at h
    unfold mkDatetime at h
    by_cases hv : validDate y m dd
    · simp only [hv, if_true, Option.some.injEq] at h
      rw [← h]
      simpa [Date.valid] using hv
    · simp [hv] at h

theorem extractPatterns_valid :
    ∀ (pats : List (Matcher × Fmt)) (stem : List Char) (d : Date),
      extractPatterns pats stem = some d → d.valid = true := by
  intro pats
  induction pats with
  | nil => intro stem d h; cases h
  | cons pf rest ih =>
    intro stem d h
    obtain ⟨pat, fmt⟩ := pf
    unfold extractPatterns at h
    cases hre : research pat stem with
    | none => rw [hre] at h; exact ih stem d h
    | some g =>
      simp only [hre] at h
      cases hst : strptime fmt (joinGroups g) with
      | none => simp only [hst] at h; exact ih stem d h
      | some d0 =>
        simp only [hst, Option.some.injEq] at h
        subst h
        exact strptime_valid hst

theorem extract_from_filename_valid {stem : List Char} {d : Date}
    (h : extract_from_filename stem = some d) : d.valid = true :=
  extractPatterns_valid DATE_PATTERNS stem d h

/-- C3.  For every file that exists and is stat-able — so the stat outcome is
a date, valid because `datetime.fromtimestamp` only builds valid dates — date
resolution never returns `None`: whichever of the EXIF branch, the filename
branch or the modification-time fallback fires, `extract_date` yields a valid
calendar date. -/
theorem C3_extract_date_total (pillow : Bool) (stem suffix : List Char)
    (exifDate mtimeDate : Option Date) (d : Date)
    (hmt : mtimeDate = some d) (hvd : d.valid = true)
    (hex : ∀ e, exifDate = some e → e.valid = true) :
    ∃ d', extract_date pillow stem suffix exifDate mtimeDate = some d' ∧
      d'.valid = true := by
  subst hmt
  by_cases hpi : (pillow && is_image suffix) = true
  · cases hexif : exifDate with
    | some e => exact ⟨e, by simp [extract_date, hpi, hexif], hex e hexif⟩
    | none =>
      cases hfn : extract_from_filename stem with
      | some f =>
        exact ⟨f, by simp [extract_date, hpi, hexif, hfn],
          extract_from_filename_valid hfn⟩
      | none => exact ⟨d, by simp [extract_date, hpi, hexif, hfn], hvd⟩
  · have hpi' : (pillow && is_image suffix) = false := by
      cases h2 : pillow && is_image suffix
      · rfl
      · exact absurd h2 hpi
    cases hfn : extract_from_filename stem with
    | some f =>
      exact ⟨f, by simp [extract_date, hpi', hfn], extract_from_filename_valid hfn⟩
    | none => exact ⟨d, by simp [extract_date, hpi', hfn], hvd⟩

theorem C3_witness :
    ((some ⟨2021, 1, 1⟩ : Option Date) = some ⟨2021, 1, 1⟩)
    ∧ (⟨2021, 1, 1⟩ : Date).valid = true
    ∧ (∀ e : Date, (Option.none : Option Date) = some e → e.valid = true)
    ∧ ∃ d', extract_date true "a".data ".jpg".data Option.none (some ⟨2021, 1, 1⟩) =
        some d' ∧ d'.valid = true :=
  ⟨rfl, by decide, (fun _ h => by cases h),
    C3_extract_date_total true "a".data ".jpg".data Option.none (some ⟨2021, 1, 1⟩)
      ⟨2021, 1, 1⟩ rfl (by decide) (fun _ h => by cases h)⟩

/-- C6.  A regex match whose captured fields do not parse into a valid
calendar date is treated as a non-match: the pattern loop falls through to
the remaining patterns unchanged; any date the filename branch does return
is valid; and when every pattern has fallen through, resolution is exactly
the modification-time fallback. -/
theorem C6_invalid_match_falls_through :
    (∀ (pat : Matcher) (fmt : Fmt) (rest : List (Matcher × Fmt)) (stem : List Char)
        (g : Groups), research pat stem = some g →
        strptime fmt (joinGroups g) = Option.none →
        extractPatterns ((pat, fmt) :: rest) stem = extractPatterns rest stem)
    ∧ (∀ (stem : List Char) (d : Date),
        extract_from_filename stem = some d → d.valid = true)
    ∧ (∀ (pillow : Bool) (stem suffix : List Char) (mt : Option Date),
        extract_from_filename stem = Option.none →
        extract_date pillow stem suffix Option.none mt = mt) := by
  refine ⟨?_, ?_, ?_⟩
  · intro pat fmt rest stem g hre hst
    simp only [extractPatterns, hre, hst]
  · intro stem d h
    exact extract_from_filename_valid h
  · intro pillow stem suffix mt hfn
    cases hpi : pillow && is_image suffix <;>
      simp [extract_date, hpi, hfn]

theorem C6_witness :
    (research matchYmdSep "2024-13-05".data =
        some ("2024".data, "13".data, "05".data))
    ∧ (strptime .ymdDash
        (joinGroups ("2024".data, "13".data, "05".data)) = Option.none)
    ∧ (extractPatterns DATE_PATTERNS "2024-13-05".data =
        extractPatterns (DATE_PATTERNS.tail) "2024-13-05".data)
    ∧ (extract_from_filename "2024-13-05".data = Option.none)
    ∧ (extract_date false "2024-13-05".data ".jpg".data Option.none
        (some ⟨2021, 2, 3⟩) = some ⟨2021, 2, 3⟩) :=
  ⟨by decide, by decide,
    C6_invalid_match_falls_through.1 matchYmdSep .ymdDash (DATE_PATTERNS.tail)
      "2024-13-05".data ("2024".data, "13".data, "05".data) (by decide) (by decide),
    by decide,
    C6_invalid_match_falls_through.2.2 false "2024-13-05".data ".jpg".data
      (some ⟨2021, 2, 3⟩) (by decide)⟩

/-- C5 (code bug).  The spec scenario expects `IMG_20240315_100000.jpg` with
no embedded metadata to resolve through the filename patterns to 2024-03-15
and land in `2024/03` under `year_month`.  The code instead joins the
captured groups with dashes and then parses with `"%Y%m%d"`, a format that
dashed text can never satisfy, so every `YYYYMMDD`-shaped pattern raises
`ValueError` and the resolver falls back to the modification time; the
repository's own test `test_extract_from_filename_yyyymmdd` asserts the
spec's expectation and fails on this code.  Evaluated here: the filename
branch yields nothing, resolution returns the mtime date, and the computed
destination (for an mtime of 2020-05-05) is `2020/05`, not `2024/03`. -/
theorem C5_filename_extraction_fails :
    extract_from_filename "IMG_20240315_100000".data = Option.none
    ∧ extract_date true "IMG_20240315_100000".data ".jpg".data Option.none
        (some ⟨2020, 5, 5⟩) = some ⟨2020, 5, 5⟩
    ∧ get_destination_directory [] .year_month ⟨2020, 5, 5⟩ =
        ["2020".data, "05".data]
    ∧ ("2020".data : List Char) ≠ "2024".data := by
  refine ⟨by decide, by decide, ?_, by decide⟩
  decide


/-! ### Duplicate-detection theorem -/

/-- C2.  For every input sequence and every digest, the duplicates reported
among that digest's group are exactly the group members after the first, in
arrival order; in particular a file whose digest is unique in the input is
never reported. -/
theorem C2_find_duplicates_keeps_first (files : List (FPath × Option Nat))
    (h : Nat) (hnd : (files.map Prod.fst).Nodup) :
    (find_duplicates (scan_files files)).filter
        (fun p => p ∈ hashGroup h files) = (hashGroup h files).tail := by
  rw [find_duplicates_eq]
  exact dups_filter_aux files h hnd (scan_files files)
    (fun g hg => scan_files_group_eq hg) (scan_files_keys_nodup files)
    (lookupG_scan_files files h)

/-- Concrete input for the C2 witness: three files sharing digest 1 and one
unique file with digest 2. -/
def c2Input : List (FPath × Option Nat) :=
  [(⟨[], "a.jpg".data⟩, some 1), (⟨[], "b.jpg".data⟩, some 1),
   (⟨[], "c.jpg".data⟩, some 2), (⟨[], "d.jpg".data⟩, some 1)]

theorem C2_witness :
    ((c2Input.map Prod.fst).Nodup)
    ∧ (find_duplicates (scan_files c2Input)).filter
        (fun p => p ∈ hashGroup 1 c2Input) = (hashGroup 1 c2Input).tail :=
  ⟨by decide, C2_find_duplicates_keeps_first c2Input 1 (by decide)⟩


/-! ### Invariants of the organize run -/

theorem nodup_map_replace {l : List FPath} {src dest : FPath}
    (hnd : l.Nodup) (hdest : dest ∉ l) :
    (l.map (fun q => if q = src then dest else q)).Nodup := by
  induction l with
  | nil => simp
  | cons a t ih =>
    have hndt : t.Nodup := (List.nodup_cons.mp hnd).2
    have hat : a ∉ t := (List.nodup_cons.mp hnd).1
    have hdt : dest ∉ t := fun hc => hdest (List.mem_cons_of_mem _ hc)
    have hda : dest ≠ a := fun hc => hdest (hc ▸ List.mem_cons_self _ _)
    simp only [List.map_cons, List.nodup_cons]
    refine ⟨?_, ih hndt hdt⟩
    intro hmem
    obtain ⟨b, hb, hfb⟩ := List.mem_map.mp hmem
    by_cases hbs : b = src <;> by_cases has : a = src
    · have hba : a = b := by rw [has, hbs]
      exact hat (hba ▸ hb)
    · rw [if_pos hbs, if_neg has] at hfb
      exact hda hfb
    · rw [if_neg hbs, if_pos has] at hfb
      exact hdt (hfb ▸ hb)
    · rw [if_neg hbs, if_neg has] at hfb
      exact hat (hfb ▸ hb)

theorem pathsOf_safe_move {fs fs' : List FFile} {src destination dest : FPath}
    (h : safe_move_file fs src destination = some (fs', dest)) :
    pathsOf fs' = (pathsOf fs).map (fun q => if q = src then dest else q) := by
  rw [safe_move_fs h]
  unfold pathsOf
  rw [List.map_map, List.map_map]
  apply List.map_congr_left
  intro f _
  by_cases hf : f.path = src <;> simp [hf, FFile.withPath, Function.comp]

theorem mem_map_replace_of_ne {l : List FPath} {src dest q : FPath}
    (hq : q ∈ l) (hne : q ≠ src) :
    q ∈ l.map (fun r => if r = src then dest else r) :=
  List.mem_map.mpr ⟨q, hq, by simp [hne]⟩

theorem dest_mem_map_replace {l : List FPath} {src dest : FPath} (hq : src ∈ l) :
    dest ∈ l.map (fun r => if r = src then dest else r) :=
  List.mem_map.mpr ⟨src, hq, by simp⟩

/-- The inductive invariant of `_organize_files` relating the current state
to the paths still pending: paths are distinct, pending paths exist, and
every destination claimed so far exists, is claimed once, and is not a
pending source. -/
structure OrgInv (st : OrgState) (pending : List FPath) : Prop where
  nodup : (pathsOf st.fs).Nodup
  pend_nodup : pending.Nodup
  pend_sub : ∀ p ∈ pending, p ∈ pathsOf st.fs
  placed_in : ∀ q ∈ st.trace.map Prod.snd, q ∈ pathsOf st.fs
  placed_not_pending : ∀ q ∈ st.trace.map Prod.snd, q ∉ pending
  placed_nodup : (st.trace.map Prod.snd).Nodup

theorem organize_step_eq_of_none (mode : OrganizeMode) (root : List (List Char))
    (dry : Bool) {pillow : Bool} {st : OrgState} {p : FPath}
    (hdate : extract_date_at pillow st.fs p = Option.none) :
    organize_step mode root pillow dry st p = st := by
  unfold organize_step
  rw [hdate]

theorem organize_step_eq_of_inplace (mode : OrganizeMode) (root : List (List Char))
    (dry : Bool) {pillow : Bool} {st : OrgState} {p : FPath} {d : Date}
    (hdate : extract_date_at pillow st.fs p = some d)
    (hpl : p.dir = get_destination_directory root mode d) :
    organize_step mode root pillow dry st p = st := by
  unfold organize_step
  rw [hdate]
  simp [hpl]

theorem organize_step_eq_of_move {mode : OrganizeMode} {root : List (List Char)}
    {pillow : Bool} {st : OrgState} {p : FPath} {d : Date} {fs' : List FFile}
    {dest : FPath}
    (hdate : extract_date_at pillow st.fs p = some d)
    (hpl : p.dir ≠ get_destination_directory root mode d)
    (hmv : safe_move_file st.fs p ⟨get_destination_directory root mode d, p.nm⟩ =
      some (fs', dest)) :
    organize_step mode root pillow false st p =
      ⟨fs', treeAddFile dest.dir dest.nm (treeRemoveFile p.dir p.nm st.tree),
        st.organized + 1, st.errors, st.trace ++ [(p, dest)]⟩ := by
  unfold organize_step
  rw [hdate]
  simp [hpl, hmv]

theorem organize_step_inv (mode : OrganizeMode) (root : List (List Char))
    (pillow : Bool) {st : OrgState} {p : FPath} {pending : List FPath}
    (hinv : OrgInv st (p :: pending)) :
    OrgInv (organize_step mode root pillow false st p) pending
    ∧ (organize_step mode root pillow false st p).fs.length = st.fs.length
    ∧ ∃ t', (organize_step mode root pillow false st p).trace = st.trace ++ t' := by
  have hshrink : OrgInv st pending ∧ st.fs.length = st.fs.length ∧
      ∃ t', st.trace = st.trace ++ t' :=
    ⟨⟨hinv.nodup, (List.nodup_cons.mp hinv.pend_nodup).2,
      (fun q hq => hinv.pend_sub q (List.mem_cons_of_mem _ hq)),
      hinv.placed_in,
      (fun q hq hc => hinv.placed_not_pending q hq (List.mem_cons_of_mem _ hc)),
      hinv.placed_nodup⟩, rfl, [], by simp⟩
  cases hdate : extract_date_at pillow st.fs p with
  | none => rw [organize_step_eq_of_none mode root false hdate]; exact hshrink
  | some d =>
    by_cases hplace : p.dir = get_destination_directory root mode d
    · rw [organize_step_eq_of_inplace mode root false hdate hplace]
      exact hshrink
    · have hp : p ∈ pathsOf st.fs := hinv.pend_sub p (List.mem_cons_self _ _)
      obtain ⟨fs', dest, hmv⟩ :=
        safe_move_isSome st.fs p
          ⟨get_destination_directory root mode d, p.nm⟩ hp
      rw [organize_step_eq_of_move hdate hplace hmv]
      have hfree : dest ∉ pathsOf st.fs := safe_move_dest_free hmv
      have hpaths : pathsOf fs' =
          (pathsOf st.fs).map (fun q => if q = p then dest else q) :=
        pathsOf_safe_move hmv
      have hpnotin : p ∉ pending := (List.nodup_cons.mp hinv.pend_nodup).1
      constructor
      · refine ⟨?_, (List.nodup_cons.mp hinv.pend_nodup).2, ?_, ?_, ?_, ?_⟩
        · rw [hpaths]; exact nodup_map_replace hinv.nodup hfree
        · intro q hq
          rw [hpaths]
          have hqp : q ≠ p := fun hc => hpnotin (hc ▸ hq)
          exact mem_map_replace_of_ne
            (hinv.pend_sub q (List.mem_cons_of_mem _ hq)) hqp
        · intro q hq
          simp only [List.map_append, List.map_cons, List.map_nil] at hq
          rcases List.mem_append.mp hq with hq | hq
          · rw [hpaths]
            have hqp : q ≠ p := fun hc =>
              hinv.placed_not_pending q hq (hc ▸ List.mem_cons_self _ _)
            exact mem_map_replace_of_ne (hinv.placed_in q hq) hqp
          · have hqd : q = dest := by simpa using hq
            subst hqd
            rw [hpaths]
            exact dest_mem_map_replace hp
        · intro q hq hc
          simp only [List.map_append, List.map_cons, List.map_nil] at hq
          rcases List.mem_append.mp hq with hq | hq
          · exact hinv.placed_not_pending q hq (List.mem_cons_of_mem _ hc)
          · have hqd : q = dest := by simpa using hq
            subst hqd
            exact hfree (hinv.pend_sub q (List.mem_cons_of_mem _ hc))
        · simp only [List.map_append, List.map_cons, List.map_nil]
          apply List.Nodup.append hinv.placed_nodup (List.nodup_singleton _)
          intro q hq hq2
          have hqd : q = dest := by simpa using hq2
          subst hqd
          exact hfree (hinv.placed_in q hq)
      · exact ⟨safe_move_length hmv, [(p, dest)], rfl⟩

theorem organize_files_inv (mode : OrganizeMode) (root : List (List Char))
    (pillow : Bool) :
    ∀ (pending : List FPath) (st : OrgState), OrgInv st pending →
      OrgInv (organize_files mode root pillow false st pending) []
      ∧ (organize_files mode root pillow false st pending).fs.length = st.fs.length
      ∧ ∃ t', (organize_files mode root pillow false st pending).trace =
          st.trace ++ t' := by
  intro pending
  induction pending with
  | nil =>
    intro st hinv
    exact ⟨⟨hinv.nodup, List.nodup_nil, (by simp), hinv.placed_in,
      (fun q _ hc => by cases hc), hinv.placed_nodup⟩, rfl, [],
      by simp [organize_files]⟩
  | cons p rest ih =>
    intro st hinv
    obtain ⟨hinv', hlen', t1, htr'⟩ := organize_step_inv mode root pillow hinv
    have hfold : organize_files mode root pillow false st (p :: rest) =
        organize_files mode root pillow false
          (organize_step mode root pillow false st p) rest := rfl
    rw [hfold]
    obtain ⟨hfin, hlen2, t2, htr2⟩ := ih _ hinv'
    refine ⟨hfin, by rw [hlen2, hlen'], t1 ++ t2, ?_⟩
    rw [htr2, htr', List.append_assoc]

/-- C1.  Conjunct one: `get_unique_filename` returns the first free candidate
of the sequence original name, `stem_1.ext`, `stem_2.ext`, ... — so the
chosen name is never an existing one and every smaller counter was occupied.
Conjunct two: over a whole non-dry organize run on distinct existing sources,
no file record is lost or duplicated (moves never overwrite), the final paths
are distinct, and no two moves of the run claim the same destination path. -/
theorem C1_collision_safety :
    (∀ (occupied : List FPath) (q : FPath),
      ∃ n, get_unique_filename occupied q = uniqCand q n ∧
        uniqCand q n ∉ occupied ∧ ∀ k, k < n → uniqCand q k ∈ occupied)
    ∧ (∀ (mode : OrganizeMode) (root : List (List Char)) (pillow : Bool)
        (fs : List FFile) (tree : DTree) (files : List FPath),
        (pathsOf fs).Nodup → files.Nodup → (∀ p ∈ files, p ∈ pathsOf fs) →
        (((organize_files mode root pillow false ⟨fs, tree, 0, 0, []⟩ files).trace.map
            Prod.snd).Nodup)
        ∧ (organize_files mode root pillow false ⟨fs, tree, 0, 0, []⟩ files).fs.length =
            fs.length
        ∧ (pathsOf (organize_files mode root pillow false ⟨fs, tree, 0, 0, []⟩
            files).fs).Nodup) := by
  constructor
  · exact get_unique_filename_spec
  · intro mode root pillow fs tree files hnd hfnd hsub
    have hinv : OrgInv ⟨fs, tree, 0, 0, []⟩ files :=
      ⟨hnd, hfnd, hsub, (fun q hq => by cases hq), (fun q hq => by cases hq),
        by simp⟩
    obtain ⟨hfin, hlen, _, _⟩ := organize_files_inv mode root pillow files _ hinv
    exact ⟨hfin.placed_nodup, hlen, hfin.nodup⟩

/-- Concrete world for the C1 witness: two distinct files that resolve to the
same destination directory and filename. -/
def c1World : List FFile :=
  [⟨⟨["a".data], "photo.jpg".data⟩, Option.none, Option.none, some ⟨2021, 1, 1⟩⟩,
   ⟨⟨["b".data], "photo.jpg".data⟩, Option.none, Option.none, some ⟨2021, 1, 1⟩⟩]

def c1Files : List FPath :=
  [⟨["a".data], "photo.jpg".data⟩, ⟨["b".data], "photo.jpg".data⟩]

theorem C1_witness :
    ((pathsOf c1World).Nodup ∧ c1Files.Nodup ∧ (∀ p ∈ c1Files, p ∈ pathsOf c1World))
    ∧ (((organize_files .year [] false false ⟨c1World, .node [] [] [], 0, 0, []⟩
          c1Files).trace.map Prod.snd).Nodup)
    ∧ (organize_files .year [] false false ⟨c1World, .node [] [] [], 0, 0, []⟩
          c1Files).fs.length = c1World.length
    ∧ (pathsOf (organize_files .year [] false false ⟨c1World, .node [] [] [], 0, 0, []⟩
          c1Files).fs).Nodup := by
  refine ⟨⟨by decide, by decide, by decide⟩, ?_⟩
  exact C1_collision_safety.2 .year [] false c1World (.node [] [] []) c1Files
    (by decide) (by decide) (by decide)


/-! ### Dry-run purity -/

theorem organize_step_eq_of_dry {mode : OrganizeMode} {root : List (List Char)}
    {pillow : Bool} {st : OrgState} {p : FPath} {d : Date}
    (hdate : extract_date_at pillow st.fs p = some d)
    (hpl : p.dir ≠ get_destination_directory root mode d) :
    organize_step mode root pillow true st p =
      ⟨st.fs, st.tree, st.organized + 1, st.errors, st.trace⟩ := by
  unfold organize_step
  rw [hdate]
  simp [hpl]

theorem organize_step_dry (mode : OrganizeMode) (root : List (List Char))
    (pillow : Bool) (st : OrgState) (p : FPath) :
    (organize_step mode root pillow true st p).fs = st.fs
    ∧ (organize_step mode root pillow true st p).tree = st.tree := by
  cases hdate : extract_date_at pillow st.fs p with
  | none => rw [organize_step_eq_of_none mode root true hdate]; exact ⟨rfl, rfl⟩
  | some d =>
    by_cases hpl : p.dir = get_destination_directory root mode d
    · rw [organize_step_eq_of_inplace mode root true hdate hpl]; exact ⟨rfl, rfl⟩
    · rw [organize_step_eq_of_dry hdate hpl]; exact ⟨rfl, rfl⟩

theorem organize_files_dry_fs (mode : OrganizeMode) (root : List (List Char))
    (pillow : Bool) :
    ∀ (files : List FPath) (st : OrgState),
      (organize_files mode root pillow true st files).fs = st.fs := by
  intro files
  induction files with
  | nil => intro st; rfl
  | cons p rest ih =>
    intro st
    have hstep := organize_step_dry mode root pillow st p
    have hfold : organize_files mode root pillow true st (p :: rest) =
        organize_files mode root pillow true
          (organize_step mode root pillow true st p) rest := rfl
    rw [hfold, ih (organize_step mode root pillow true st p), hstep.1]

theorem organize_files_dry_tree (mode : OrganizeMode) (root : List (List Char))
    (pillow : Bool) :
    ∀ (files : List FPath) (st : OrgState),
      (organize_files mode root pillow true st files).tree = st.tree := by
  intro files
  induction files with
  | nil => intro st; rfl
  | cons p rest ih =>
    intro st
    have hstep := organize_step_dry mode root pillow st p
    have hfold : organize_files mode root pillow true st (p :: rest) =
        organize_files mode root pillow true
          (organize_step mode root pillow true st p) rest := rfl
    rw [hfold, ih (organize_step mode root pillow true st p), hstep.2]

theorem process_duplicates_dry (fs : List FFile) (tree : DTree)
    (media : List FPath) :
    (process_duplicates fs tree media true).fs = fs
    ∧ (process_duplicates fs tree media true).tree = tree := by
  unfold process_duplicates
  by_cases hd : (find_duplicates (scan_files
      (media.map (fun p => (p, hashOf fs p))))).isEmpty <;> simp [hd]

/-- C4.  With dry-run enabled no phase mutates the world: the duplicate phase
returns before deleting, the organize loop only counts, and pruning is
skipped, so the file list and the directory tree after `process` are the ones
it was given — even when the run reports duplicates found and files it would
organize. -/
theorem C4_dry_run_pure (mode : OrganizeMode) (remove_duplicates pillow : Bool)
    (fs : List FFile) (tree : DTree) :
    (process mode remove_duplicates true pillow fs tree).1 = fs
    ∧ (process mode remove_duplicates true pillow fs tree).2.1 = some tree := by
  unfold process
  by_cases hm : (scan_media_files tree).isEmpty
  · simp [hm]
  · by_cases hmode : mode = OrganizeMode.none <;> by_cases hrd : remove_duplicates <;>
      simp [hm, hmode, hrd, organize_files_dry_fs, organize_files_dry_tree,
        (process_duplicates_dry fs tree (scan_media_files tree)).1,
        (process_duplicates_dry fs tree (scan_media_files tree)).2]


/-! ### Pruning of empty directories -/

/-- The C10 property of one tree. -/
def PruneOK (t : DTree) : Prop :=
  ((remove_empty_directories t).1 = Option.none ↔ prunable t = true)
  ∧ ((remove_empty_directories t).1 = Option.none →
      (remove_empty_directories t).2 = dirCount t)

/-- The C10 property of a subdirectory list. -/
def PruneListOK (ts : List DTree) : Prop :=
  ((pruneSubdirs ts).1 = [] ↔ allPrunable ts = true)
  ∧ ((pruneSubdirs ts).1 = [] → (pruneSubdirs ts).2 = dirCountList ts)

theorem sizeOf_node_parts (nm : List Char) (subs : List DTree)
    (fils : List (List Char)) :
    sizeOf subs < sizeOf (DTree.node nm subs fils) := by
  simp only [DTree.node.sizeOf_spec]
  omega

theorem prune_spec_aux : ∀ n : Nat,
    (∀ t : DTree, sizeOf t < n → PruneOK t)
    ∧ (∀ ts : List DTree, sizeOf ts < n → PruneListOK ts) := by
  intro n
  induction n with
  | zero => exact ⟨fun t ht => absurd ht (by omega), fun ts hts => absurd hts (by omega)⟩
  | succ m ih =>
    constructor
    · intro t ht
      obtain ⟨nm, subs, fils⟩ := t
      have hsubs : sizeOf subs < m := by
        have h1 := sizeOf_node_parts nm subs fils
        omega
      obtain ⟨hiff, hcount⟩ := ih.2 subs hsubs
      unfold PruneOK
      simp only [remove_empty_directories, prunable, dirCount]
      rcases hr : pruneSubdirs subs with ⟨subs', c⟩
      rw [hr] at hiff hcount
      simp only at hiff hcount
      by_cases hes : subs' = []
      · subst hes
        have hap : allPrunable subs = true := hiff.mp rfl
        have hc : c = dirCountList subs := hcount rfl
        by_cases hfe : fils = []
        · subst hfe
          simp [hap, hc]
          omega
        · by_cases hfd : fils = [DS_STORE]
          · subst hfd
            simp [hap, hc, List.isEmpty_iff, hfe]
            omega
          · simp [hap, List.isEmpty_iff, hfe, hfd]
      · have hap : allPrunable subs = false := by
          cases hq : allPrunable subs
          · rfl
          · exact absurd (hiff.mpr hq) hes
        simp [List.isEmpty_iff, hes, hap]
    · intro ts hts
      cases ts with
      | nil =>
        unfold PruneListOK
        simp [pruneSubdirs, allPrunable, dirCountList]
      | cons t rest =>
        have hcsz : sizeOf (t :: rest) = 1 + sizeOf t + sizeOf rest := by simp
        have hst : sizeOf t < m := by omega
        have hsr : sizeOf rest < m := by omega
        obtain ⟨tiff, tcount⟩ := ih.1 t hst
        obtain ⟨riff, rcount⟩ := ih.2 rest hsr
        unfold PruneListOK
        simp only [pruneSubdirs, allPrunable, dirCountList]
        rcases hrt : remove_empty_directories t with ⟨ot, ct⟩
        rcases hrr : pruneSubdirs rest with ⟨subs', cr⟩
        rw [hrt] at tiff tcount
        rw [hrr] at riff rcount
        simp only at tiff tcount riff rcount
        cases ot with
        | none =>
          have hpt : prunable t = true := tiff.mp rfl
          have hct : ct = dirCount t := tcount rfl
          constructor
          · constructor
            · intro he
              simp only at he
              exact by simp [hpt, riff.mp he]
            · intro hall
              simp only
              exact riff.mpr (by
                have := hall
                simp [hpt] at this
                exact this)
          · intro he
            simp only at he ⊢
            rw [hct, rcount he]
        | some t' =>
          constructor
          · constructor
            · intro he
              simp at he
            · intro hall
              have hpt : prunable t = true := by
                cases hq : prunable t
                · rw [hq] at hall; simp at hall
                · rfl
              exact absurd (tiff.mpr hpt) (by simp)
          · intro he
            simp at he

/-- C10.  A directory tree is deleted root-and-all by
`remove_empty_directories` exactly when every directory in it holds no plain
file besides possibly a single `.DS_Store` (which the code unlinks before the
`rmdir`); the root directory itself is then removed and counted, so the count
equals the total number of directories in the tree. -/
theorem C10_prune_removes_root (t : DTree) :
    ((remove_empty_directories t).1 = Option.none ↔ prunable t = true)
    ∧ ((remove_empty_directories t).1 = Option.none →
        (remove_empty_directories t).2 = dirCount t) :=
  (prune_spec_aux (sizeOf t + 1)).1 t (by omega)

theorem C10_witness :
    (remove_empty_directories
        (.node "r".data [.node "d".data [] []] [DS_STORE])).1 = Option.none
    ∧ (remove_empty_directories
        (.node "r".data [.node "d".data [] []] [DS_STORE])).2 =
      dirCount (.node "r".data [.node "d".data [] []] [DS_STORE]) := by
  have hnone : (remove_empty_directories
      (.node "r".data [.node "d".data [] []] [DS_STORE])).1 = Option.none := by
    simp [remove_empty_directories, pruneSubdirs]
  exact ⟨hnone,
    (C10_prune_removes_root (.node "r".data [.node "d".data [] []] [DS_STORE])).2 hnone⟩


/-! ### Enumeration order -/

/-- C9 (amended).  `scan_media_files` applies no sorting: its output is the
subsequence of the directory walk consisting exactly of the entries with a
recognised media extension, in walk order — the depth-first traversal in
stored (`os.scandir`) entry order.  Determinism and the claimed lexicographic
order therefore hold only as far as the underlying enumeration provides
them. -/
theorem C9_scan_is_walk_order (t : DTree) :
    (scan_media_files t).Sublist (walkEntries [] t)
    ∧ (∀ p ∈ walkEntries [] t, isMediaPath p = true → p ∈ scan_media_files t)
    ∧ (∀ p ∈ scan_media_files t, p ∈ walkEntries [] t ∧ isMediaPath p = true) := by
  refine ⟨List.filter_sublist _, ?_, ?_⟩
  · intro p hp hm
    exact List.mem_filter.mpr ⟨hp, hm⟩
  · intro p hp
    exact ⟨(List.mem_filter.mp hp).1, (List.mem_filter.mp hp).2⟩

theorem C9_witness :
    ((⟨[], "a.jpg".data⟩ : FPath) ∈ walkEntries []
        (.node "r".data [] ["a.jpg".data, "x.txt".data]))
    ∧ isMediaPath (⟨[], "a.jpg".data⟩ : FPath) = true
    ∧ (⟨[], "a.jpg".data⟩ : FPath) ∈ scan_media_files
        (.node "r".data [] ["a.jpg".data, "x.txt".data]) := by
  have hw : (⟨[], "a.jpg".data⟩ : FPath) ∈ walkEntries []
      (.node "r".data [] ["a.jpg".data, "x.txt".data]) := by
    simp [walkEntries, walkSubs]
  have hm : isMediaPath (⟨[], "a.jpg".data⟩ : FPath) = true := by decide
  exact ⟨hw, hm,
    (C9_scan_is_walk_order (.node "r".data [] ["a.jpg".data, "x.txt".data])).2.1
      ⟨[], "a.jpg".data⟩ hw hm⟩

/-- C9 (counterexample to the claim as stated).  Nothing sorts the walk: with
the on-disk entry order `b.jpg, a.jpg` the enumeration yields exactly that
order, which is not lexicographically sorted. -/
theorem C9_counterexample :
    scan_media_files (.node "r".data [] ["b.jpg".data, "a.jpg".data]) =
      [⟨[], "b.jpg".data⟩, ⟨[], "a.jpg".data⟩]
    ∧ ¬ List.Sorted (fun p q : FPath => List.Lex (· < ·) p.nm q.nm)
        (scan_media_files (.node "r".data [] ["b.jpg".data, "a.jpg".data])) := by
  have hscan : scan_media_files (.node "r".data [] ["b.jpg".data, "a.jpg".data]) =
      [⟨[], "b.jpg".data⟩, ⟨[], "a.jpg".data⟩] := by
    simp [scan_media_files, walkEntries, walkSubs]
    constructor <;> decide
  refine ⟨hscan, ?_⟩
  rw [hscan]
  decide


/-! ### Hash-failure semantics -/

theorem scanAux_filter_isSome (L : List (FPath × Option Nat)) :
    ∀ m, scanAux m L = scanAux m (L.filter (fun x => x.2.isSome)) := by
  induction L with
  | nil => intro m; rfl
  | cons x rest ih =>
    intro m
    obtain ⟨p, oh⟩ := x
    cases oh with
    | none => simpa [scanAux, List.filter_cons] using ih m
    | some h => simpa [scanAux, List.filter_cons] using ih (insertHash m h p)

theorem mem_find_duplicates_hashable {L : List (FPath × Option Nat)} {p : FPath}
    (hp : p ∈ find_duplicates (scan_files L)) : ∃ h, (p, some h) ∈ L := by
  rw [find_duplicates_eq] at hp
  obtain ⟨l, hl, hpl⟩ := List.mem_flatten.mp hp
  obtain ⟨g, hg, rfl⟩ := List.mem_map.mp hl
  have hg2 : g.2 = hashGroup g.1 L := scan_files_group_eq hg
  have hpg : p ∈ hashGroup g.1 L := hg2 ▸ mem_dupsOfGroup hpl
  exact ⟨g.1, mem_hashGroup.mp hpg⟩

theorem hashGroup_nodup {L : List (FPath × Option Nat)} (h : Nat)
    (hnd : (L.map Prod.fst).Nodup) : (hashGroup h L).Nodup := by
  unfold hashGroup
  exact List.Sublist.nodup ((List.filter_sublist L).map Prod.fst) hnd

theorem find_duplicates_nodup {L : List (FPath × Option Nat)}
    (hnd : (L.map Prod.fst).Nodup) :
    (find_duplicates (scan_files L)).Nodup := by
  rw [find_duplicates_eq]
  have haux : ∀ m : List (Nat × List FPath),
      (∀ g ∈ m, g.2 = hashGroup g.1 L) → (keysOf m).Nodup →
      ((m.map dupsOfGroup).flatten).Nodup := by
    intro m
    induction m with
    | nil => intro _ _; simp
    | cons g rest ih =>
      intro hgroups hkeys
      obtain ⟨k, ps⟩ := g
      have hconskeys : keysOf ((k, ps) :: rest) = k :: keysOf rest := rfl
      rw [hconskeys, List.nodup_cons] at hkeys
      have hps : ps = hashGroup k L := hgroups (k, ps) (List.mem_cons_self _ _)
      simp only [List.map_cons, List.flatten_cons]
      apply List.Nodup.append
      · have : (hashGroup k L).Nodup := hashGroup_nodup k hnd
        unfold dupsOfGroup
        split
        · exact (hps ▸ this).tail
        · exact List.nodup_nil
      · exact ih (fun g hg => hgroups g (List.mem_cons_of_mem _ hg)) hkeys.2
      · intro q hq hq2
        have hq1 : q ∈ hashGroup k L := hps ▸ mem_dupsOfGroup hq
        obtain ⟨l, hl, hql⟩ := List.mem_flatten.mp hq2
        obtain ⟨g', hg', rfl⟩ := List.mem_map.mp hl
        have hg2 : g'.2 = hashGroup g'.1 L :=
          hgroups g' (List.mem_cons_of_mem _ hg')
        have hq3 : q ∈ hashGroup g'.1 L := hg2 ▸ mem_dupsOfGroup hql
        have hgk : g'.1 ≠ k := by
          intro hc
          apply hkeys.1
          rw [← hc]
          exact List.mem_map.mpr ⟨g', hg', rfl⟩
        exact hashGroup_disjoint hnd (fun hc => hgk hc.symm) hq1 hq3
  exact haux (scan_files L) (fun g hg => scan_files_group_eq hg)
    (scan_files_keys_nodup L)

theorem delete_dups_survives {p : FPath} :
    ∀ (dups : List FPath) (fs : List FFile) (tree : DTree),
      p ∉ dups → p ∈ pathsOf fs →
      p ∈ pathsOf (delete_dups fs tree dups).1 := by
  intro dups
  induction dups with
  | nil => intro fs tree _ hp; exact hp
  | cons d rest ih =>
    intro fs tree hnd hp
    have hpd : p ≠ d := fun hc => hnd (hc ▸ List.mem_cons_self _ _)
    have hnr : p ∉ rest := fun hc => hnd (List.mem_cons_of_mem _ hc)
    unfold delete_dups
    by_cases hd : d ∈ pathsOf fs
    · simp only [hd, if_true]
      apply ih _ _ hnr
      obtain ⟨f, hf, rfl⟩ := List.mem_map.mp hp
      exact List.mem_map.mpr ⟨f, List.mem_filter.mpr ⟨hf, by simpa using hpd⟩, rfl⟩
    · simp only [hd, if_false]
      exact ih _ _ hnr hp

theorem delete_dups_no_errors :
    ∀ (dups : List FPath) (fs : List FFile) (tree : DTree),
      dups.Nodup → (∀ d ∈ dups, d ∈ pathsOf fs) →
      (delete_dups fs tree dups).2.2.2 = 0 := by
  intro dups
  induction dups with
  | nil => intro fs tree _ _; rfl
  | cons d rest ih =>
    intro fs tree hnd hsub
    have hd : d ∈ pathsOf fs := hsub d (List.mem_cons_self _ _)
    unfold delete_dups
    simp only [hd, if_true]
    apply ih
    · exact (List.nodup_cons.mp hnd).2
    · intro q hq
      have hq1 : q ∈ pathsOf fs := hsub q (List.mem_cons_of_mem _ hq)
      have hqd : q ≠ d := fun hc =>
        (List.nodup_cons.mp hnd).1 (hc ▸ hq)
      obtain ⟨f, hf, rfl⟩ := List.mem_map.mp hq1
      exact List.mem_map.mpr ⟨f, List.mem_filter.mpr ⟨hf, by simpa using hqd⟩, rfl⟩

/-- C7 (amended).  A per-file hashing failure is logged and skipped: the
batch continues exactly as if the failed file had not been offered to the
detector, and the failed file can never appear among the duplicates (so the
deletion phase, which errs only on missing duplicates, deletes it in no
case and completes without touching the error counter); but the failure is
not itself counted as an error, and the file is not excluded from the
organizing phase — it stays in the working list that the organize phase
receives. -/
theorem C7_hash_failure_not_counted :
    (∀ L : List (FPath × Option Nat),
      scan_files L = scan_files (L.filter (fun x => x.2.isSome)))
    ∧ (∀ (L : List (FPath × Option Nat)) (p : FPath),
        p ∈ find_duplicates (scan_files L) → ∃ h, (p, some h) ∈ L)
    ∧ (∀ (fs : List FFile) (tree : DTree) (media : List FPath) (p : FPath),
        media.Nodup → (∀ q ∈ media, q ∈ pathsOf fs) → p ∈ media →
        hashOf fs p = Option.none →
        p ∈ pathsOf (process_duplicates fs tree media false).fs
        ∧ p ∈ media.filter
            (fun q => q ∈ pathsOf (process_duplicates fs tree media false).fs)
        ∧ (process_duplicates fs tree media false).errs = 0) := by
  refine ⟨?_, ?_, ?_⟩
  · intro L
    exact scanAux_filter_isSome L []
  · intro L p hp
    exact mem_find_duplicates_hashable hp
  · intro fs tree media p hmnd hmsub hpm hph
    have hmapnd : ((media.map (fun q => (q, hashOf fs q))).map Prod.fst).Nodup := by
      have hcomp : (Prod.fst ∘ fun q : FPath => (q, hashOf fs q)) = id := rfl
      rw [List.map_map, hcomp, List.map_id]
      exact hmnd
    have hpnotdup : p ∉ find_duplicates (scan_files
        (media.map (fun q => (q, hashOf fs q)))) := by
      intro hc
      obtain ⟨h, hmem⟩ := mem_find_duplicates_hashable hc
      obtain ⟨q, hq, hpair⟩ := List.mem_map.mp hmem
      have hq1 : q = p := congrArg Prod.fst hpair
      subst hq1
      have : hashOf fs q = some h := congrArg Prod.snd hpair
      rw [hph] at this
      cases this
    have hdsub : ∀ d ∈ find_duplicates (scan_files
        (media.map (fun q => (q, hashOf fs q)))), d ∈ pathsOf fs := by
      intro d hd
      obtain ⟨h, hmem⟩ := mem_find_duplicates_hashable hd
      obtain ⟨q, hq, hpair⟩ := List.mem_map.mp hmem
      have hq1 : q = d := congrArg Prod.fst hpair
      subst hq1
      exact hmsub q hq
    have hdnd : (find_duplicates (scan_files
        (media.map (fun q => (q, hashOf fs q))))).Nodup :=
      find_duplicates_nodup hmapnd
    have hppaths : p ∈ pathsOf fs := hmsub p hpm
    unfold process_duplicates
    by_cases hde : (find_duplicates (scan_files
        (media.map (fun q => (q, hashOf fs q))))).isEmpty
    · simp only [hde, if_true]
      exact ⟨hppaths, List.mem_filter.mpr ⟨hpm, by simpa using hppaths⟩, by trivial⟩
    · simp only [hde, if_false, Bool.false_eq_true]
      have hsurv := delete_dups_survives _ fs tree hpnotdup hppaths
      refine ⟨hsurv, List.mem_filter.mpr ⟨hpm, by simpa using hsurv⟩, ?_⟩
      exact delete_dups_no_errors _ fs tree hdnd hdsub

theorem C7_witness :
    (([⟨["d".data], "a.jpg".data⟩, ⟨["d".data], "b.jpg".data⟩] :
        List FPath).Nodup
    ∧ (∀ q ∈ ([⟨["d".data], "a.jpg".data⟩, ⟨["d".data], "b.jpg".data⟩] :
        List FPath), q ∈ pathsOf
          [⟨⟨["d".data], "a.jpg".data⟩, Option.none, Option.none, Option.none⟩,
           ⟨⟨["d".data], "b.jpg".data⟩, some 7, Option.none, Option.none⟩])
    ∧ (⟨["d".data], "a.jpg".data⟩ : FPath) ∈
        ([⟨["d".data], "a.jpg".data⟩, ⟨["d".data], "b.jpg".data⟩] : List FPath)
    ∧ hashOf [⟨⟨["d".data], "a.jpg".data⟩, Option.none, Option.none, Option.none⟩,
           ⟨⟨["d".data], "b.jpg".data⟩, some 7, Option.none, Option.none⟩]
        ⟨["d".data], "a.jpg".data⟩ = Option.none)
    ∧ (⟨["d".data], "a.jpg".data⟩ : FPath) ∈ pathsOf (process_duplicates
        [⟨⟨["d".data], "a.jpg".data⟩, Option.none, Option.none, Option.none⟩,
         ⟨⟨["d".data], "b.jpg".data⟩, some 7, Option.none, Option.none⟩]
        (.node [] [] [])
        [⟨["d".data], "a.jpg".data⟩, ⟨["d".data], "b.jpg".data⟩] false).fs
    ∧ (process_duplicates
        [⟨⟨["d".data], "a.jpg".data⟩, Option.none, Option.none, Option.none⟩,
         ⟨⟨["d".data], "b.jpg".data⟩, some 7, Option.none, Option.none⟩]
        (.node [] [] [])
        [⟨["d".data], "a.jpg".data⟩, ⟨["d".data], "b.jpg".data⟩] false).errs = 0 := by
  refine ⟨⟨by decide, by decide, by decide, by decide⟩, ?_, ?_⟩
  · exact (C7_hash_failure_not_counted.2.2
      [⟨⟨["d".data], "a.jpg".data⟩, Option.none, Option.none, Option.none⟩,
       ⟨⟨["d".data], "b.jpg".data⟩, some 7, Option.none, Option.none⟩]
      (.node [] [] [])
      [⟨["d".data], "a.jpg".data⟩, ⟨["d".data], "b.jpg".data⟩]
      ⟨["d".data], "a.jpg".data⟩ (by decide) (by decide) (by decide) (by decide)).1
  · exact (C7_hash_failure_not_counted.2.2
      [⟨⟨["d".data], "a.jpg".data⟩, Option.none, Option.none, Option.none⟩,
       ⟨⟨["d".data], "b.jpg".data⟩, some 7, Option.none, Option.none⟩]
      (.node [] [] [])
      [⟨["d".data], "a.jpg".data⟩, ⟨["d".data], "b.jpg".data⟩]
      ⟨["d".data], "a.jpg".data⟩ (by decide) (by decide) (by decide) (by decide)).2.2


/-- The unreadable file of the C7 counterexample run. -/
def c7File : FFile :=
  ⟨⟨[['d']], "a.jpg".data⟩, Option.none, Option.none, some ⟨2021, 1, 1⟩⟩

/-- Its world: a single file whose hash computation fails. -/
def c7Tree : DTree := .node "root".data [.node ['d'] [] ["a.jpg".data]] []

/-- C7 (counterexample to the claim as stated).  A full non-dry run with
duplicate removal and year organisation over a world whose only file is
unreadable for hashing: the error counter stays at zero (the failure is only
logged) and the file is *not* excluded from the organizing phase — it is
moved to its date folder rather than left untouched. -/
theorem C7_counterexample :
    (process .year true false false [c7File] c7Tree).2.2.errors = 0
    ∧ (process .year true false false [c7File] c7Tree).1 =
        [⟨⟨[numeral 2021], "a.jpg".data⟩, Option.none, Option.none,
          some ⟨2021, 1, 1⟩⟩]
    ∧ (process .year true false false [c7File] c7Tree).2.2.organized = 1 := by
  refine ⟨?_, ?_, ?_⟩ <;>
    simp [process, c7File, c7Tree, scan_media_files, walkEntries, walkSubs,
      DTree.dnameOf, process_duplicates, hashOf, scan_files, scanAux,
      find_duplicates, organize_files, organize_step, extract_date_at, exifOf,
      mtimeOf, extract_date, extract_from_filename, extractPatterns,
      DATE_PATTERNS, research, matchYmdSep, matchYmdCompact, matchDmySep,
      matchImg, matchVid, takeDigits, takeSep, takeLit, splitName, lastDot,
      isMediaPath, MEDIA_EXTENSIONS, lowerName, is_image, safe_move_file,
      pathsOf, get_destination_directory, numeral, numeralRev,
      get_unique_filename, guAux, uniqCand, remove_empty_directories,
      pruneSubdirs, treeAddFile, treeRemoveFile, delete_dups, DS_STORE,
      FFile.withPath]


/-! ### Idempotence of the organize phase -/

theorem find?_path_eq {fs : List FFile} {p : FPath} {f : FFile}
    (hnd : (pathsOf fs).Nodup) (hf : f ∈ fs) (hp : f.path = p) :
    fs.find? (fun g => g.path = p) = some f := by
  induction fs with
  | nil => cases hf
  | cons g rest ih =>
    have hnd2 : (pathsOf (g :: rest)).Nodup := hnd
    simp only [pathsOf, List.map_cons, List.nodup_cons] at hnd2
    rcases List.mem_cons.mp hf with rfl | hfr
    · rw [List.find?_cons_of_pos]
      simp [hp]
    · have hgp : ¬ g.path = p := by
        intro hc
        apply hnd2.1
        rw [hc, ← hp]
        exact List.mem_map.mpr ⟨f, hfr, rfl⟩
      rw [List.find?_cons_of_neg rest (by simpa using hgp)]
      exact ih hnd2.2 hfr

theorem extract_date_at_eq {fs : List FFile} {p : FPath} {f : FFile} (pillow : Bool)
    (hnd : (pathsOf fs).Nodup) (hf : f ∈ fs) (hp : f.path = p) :
    extract_date_at pillow fs p = extractOfFile pillow f := by
  unfold extract_date_at extractOfFile exifOf mtimeOf
  rw [find?_path_eq hnd hf hp, hp]
  rfl

theorem safe_move_dest_dir {fs fs' : List FFile} {src destination dest : FPath}
    (h : safe_move_file fs src destination = some (fs', dest)) :
    dest.dir = destination.dir := by
  unfold safe_move_file at h
  by_cases hs : src ∈ pathsOf fs
  · simp only [hs, if_true, Option.some.injEq, Prod.mk.injEq] at h
    by_cases hd : destination ∈ pathsOf fs
    · obtain ⟨n, hspec, _, _⟩ := get_unique_filename_spec (pathsOf fs) destination
      rw [← h.2]
      simp only [hd, if_true]
      rw [hspec, uniqCand_dir]
    · rw [← h.2]; simp [hd]
  · simp [hs] at h

/-- A file already at its computed destination (or yielding no date): the
organize loop leaves it alone. -/
def AlreadyPlaced (mode : OrganizeMode) (root : List (List Char)) (pillow : Bool)
    (f : FFile) : Prop :=
  extractOfFile pillow f = Option.none ∨
    ∃ d, extractOfFile pillow f = some d ∧
      get_destination_directory root mode d = f.path.dir

theorem organize_step_inert {mode : OrganizeMode} {root : List (List Char)}
    {pillow : Bool} {st : OrgState} {p : FPath}
    (hnd : (pathsOf st.fs).Nodup)
    (hplaced : ∀ f ∈ st.fs, f.path = p → AlreadyPlaced mode root pillow f)
    (hex : ∃ f ∈ st.fs, f.path = p) :
    organize_step mode root pillow false st p = st := by
  obtain ⟨f, hf, hp⟩ := hex
  have hbr := extract_date_at_eq pillow hnd hf hp
  rcases hplaced f hf hp with hnone | ⟨d, hd, hdir⟩
  · exact organize_step_eq_of_none mode root false (by rw [hbr]; exact hnone)
  · have hd' : extract_date_at pillow st.fs p = some d := by rw [hbr]; exact hd
    apply organize_step_eq_of_inplace mode root false hd'
    rw [← hp]
    exact hdir.symm

theorem organize_files_inert (mode : OrganizeMode) (root : List (List Char))
    (pillow : Bool) :
    ∀ (files : List FPath) (st : OrgState),
      (pathsOf st.fs).Nodup →
      (∀ p ∈ files, ∃ f ∈ st.fs, f.path = p) →
      (∀ p ∈ files, ∀ f ∈ st.fs, f.path = p → AlreadyPlaced mode root pillow f) →
      organize_files mode root pillow false st files = st := by
  intro files
  induction files with
  | nil => intro st _ _ _; rfl
  | cons p rest ih =>
    intro st hnd hex hplaced
    have hstep : organize_step mode root pillow false st p = st :=
      organize_step_inert hnd (hplaced p (List.mem_cons_self _ _))
        (hex p (List.mem_cons_self _ _))
    have hfold : organize_files mode root pillow false st (p :: rest) =
        organize_files mode root pillow false
          (organize_step mode root pillow false st p) rest := rfl
    rw [hfold, hstep]
    exact ih st hnd (fun q hq => hex q (List.mem_cons_of_mem _ hq))
      (fun q hq => hplaced q (List.mem_cons_of_mem _ hq))

theorem organize_files_places (mode : OrganizeMode) (root : List (List Char))
    (pillow : Bool) :
    ∀ (files : List FPath) (st : OrgState),
      OrgInv st files →
      (∀ f ∈ st.fs, isMediaPath f.path = true → f.path ∉ files →
        AlreadyPlaced mode root pillow f) →
      (∀ q ∈ (organize_files mode root pillow false st files).trace,
        q.2.nm = q.1.nm) →
      ∀ f ∈ (organize_files mode root pillow false st files).fs,
        isMediaPath f.path = true → AlreadyPlaced mode root pillow f := by
  intro files
  induction files with
  | nil =>
    intro st _ hplaced _ f hf hmedia
    exact hplaced f hf hmedia (by simp)
  | cons p rest ih =>
    intro st hinv hplaced htr
    have hp : p ∈ pathsOf st.fs := hinv.pend_sub p (List.mem_cons_self _ _)
    have hfold : organize_files mode root pillow false st (p :: rest) =
        organize_files mode root pillow false
          (organize_step mode root pillow false st p) rest := rfl
    have hpnotrest : p ∉ rest := (List.nodup_cons.mp hinv.pend_nodup).1
    cases hdate : extract_date_at pillow st.fs p with
    | none =>
      have hstep := organize_step_eq_of_none mode root false hdate
      rw [hfold, hstep] at htr ⊢
      have hinv' : OrgInv st rest :=
        ⟨hinv.nodup, (List.nodup_cons.mp hinv.pend_nodup).2,
          (fun q hq => hinv.pend_sub q (List.mem_cons_of_mem _ hq)),
          hinv.placed_in,
          (fun q hq hc => hinv.placed_not_pending q hq (List.mem_cons_of_mem _ hc)),
          hinv.placed_nodup⟩
      apply ih st hinv' ?_ htr
      intro g hg hgm hgr
      by_cases hgp : g.path = p
      · exact Or.inl (by
          rw [← extract_date_at_eq pillow hinv.nodup hg hgp]; exact hdate)
      · exact hplaced g hg hgm (by
          intro hc
          rcases List.mem_cons.mp hc with hc | hc
          · exact hgp hc
          · exact hgr hc)
    | some d =>
      by_cases hpl : p.dir = get_destination_directory root mode d
      · have hstep := organize_step_eq_of_inplace mode root false hdate hpl
        rw [hfold, hstep] at htr ⊢
        have hinv' : OrgInv st rest :=
          ⟨hinv.nodup, (List.nodup_cons.mp hinv.pend_nodup).2,
            (fun q hq => hinv.pend_sub q (List.mem_cons_of_mem _ hq)),
            hinv.placed_in,
            (fun q hq hc => hinv.placed_not_pending q hq (List.mem_cons_of_mem _ hc)),
            hinv.placed_nodup⟩
        apply ih st hinv' ?_ htr
        intro g hg hgm hgr
        by_cases hgp : g.path = p
        · refine Or.inr ⟨d, ?_, ?_⟩
          · rw [← extract_date_at_eq pillow hinv.nodup hg hgp]; exact hdate
          · rw [hgp, ← hpl]
        · exact hplaced g hg hgm (by
            intro hc
            rcases List.mem_cons.mp hc with hc | hc
            · exact hgp hc
            · exact hgr hc)
      · obtain ⟨fs', dest, hmv⟩ :=
          safe_move_isSome st.fs p
            ⟨get_destination_directory root mode d, p.nm⟩ hp
        have hstep := organize_step_eq_of_move hdate hpl hmv
        have hinv' := (organize_step_inv mode root pillow hinv).1
        rw [hstep] at hinv'
        rw [hfold, hstep] at htr ⊢
        -- the pair (p, dest) is in the final trace
        obtain ⟨t2, htr2⟩ := (organize_files_inv mode root pillow rest _ hinv').2.2
        have hmem : (p, dest) ∈ (organize_files mode root pillow false
            ⟨fs', treeAddFile dest.dir dest.nm (treeRemoveFile p.dir p.nm st.tree),
              st.organized + 1, st.errors, st.trace ++ [(p, dest)]⟩ rest).trace := by
          rw [htr2]
          simp
        have hnm : dest.nm = p.nm := htr (p, dest) hmem
        apply ih _ hinv' ?_ htr
        intro g hg hgm hgr
        simp only at hg
        rw [safe_move_fs hmv] at hg
        obtain ⟨g0, hg0, hgeq⟩ := List.mem_map.mp hg
        by_cases hg0p : g0.path = p
        · rw [if_pos hg0p] at hgeq
          subst hgeq
          refine Or.inr ⟨d, ?_, ?_⟩
          · show extractOfFile pillow (g0.withPath dest) = some d
            have hsame : extractOfFile pillow (g0.withPath dest) =
                extractOfFile pillow g0 := by
              unfold extractOfFile FFile.withPath
              rw [show (⟨dest, g0.hashv, g0.exif, g0.mtime⟩ : FFile).path = dest from rfl,
                hnm, ← hg0p]
            rw [hsame, ← extract_date_at_eq pillow hinv.nodup hg0 hg0p]
            exact hdate
          · show get_destination_directory root mode d = (g0.withPath dest).path.dir
            have hdd : dest.dir = get_destination_directory root mode d :=
              safe_move_dest_dir hmv
            rw [show (g0.withPath dest).path = dest from rfl, hdd]
        · rw [if_neg hg0p] at hgeq
          subst hgeq
          apply hplaced g0 hg0 hgm
          intro hc
          rcases List.mem_cons.mp hc with hc | hc
          · exact hg0p hc
          · exact hgr hc

/-- C8 (amended).  Provided the first organize run's collision handling never
renamed a file (every move kept its source filename), a second organize run
over the produced world performs no action at all: date extraction repeats
the first run's answer for every surviving file, each file's parent equals
its computed destination, and the run returns its initial state — zero
additional moves. -/
theorem C8_second_run_idempotent (mode : OrganizeMode) (root : List (List Char))
    (pillow : Bool) (fs : List FFile) (tree tree2 : DTree)
    (files files2 : List FPath)
    (hnd : (pathsOf fs).Nodup) (hfnd : files.Nodup)
    (hmedia1 : ∀ p ∈ files, p ∈ pathsOf fs ∧ isMediaPath p = true)
    (hmedia2 : ∀ p ∈ pathsOf fs, isMediaPath p = true → p ∈ files)
    (hkeep : ∀ q ∈ (organize_files mode root pillow false
        ⟨fs, tree, 0, 0, []⟩ files).trace, q.2.nm = q.1.nm)
    (h2 : ∀ p ∈ files2,
        p ∈ pathsOf (organize_files mode root pillow false
          ⟨fs, tree, 0, 0, []⟩ files).fs ∧ isMediaPath p = true) :
    organize_files mode root pillow false
        ⟨(organize_files mode root pillow false ⟨fs, tree, 0, 0, []⟩ files).fs,
          tree2, 0, 0, []⟩ files2 =
      ⟨(organize_files mode root pillow false ⟨fs, tree, 0, 0, []⟩ files).fs,
        tree2, 0, 0, []⟩ := by
  have hinv0 : OrgInv ⟨fs, tree, 0, 0, []⟩ files :=
    ⟨hnd, hfnd, (fun p hp => (hmedia1 p hp).1), (fun q hq => by cases hq),
      (fun q hq => by cases hq), by simp⟩
  have hrunnd : (pathsOf (organize_files mode root pillow false
      ⟨fs, tree, 0, 0, []⟩ files).fs).Nodup :=
    (organize_files_inv mode root pillow files _ hinv0).1.nodup
  have hplaced0 : ∀ f ∈ (⟨fs, tree, 0, 0, []⟩ : OrgState).fs,
      isMediaPath f.path = true → f.path ∉ files →
      AlreadyPlaced mode root pillow f := by
    intro f hf hm hnot
    exact absurd (hmedia2 f.path (List.mem_map.mpr ⟨f, hf, rfl⟩) hm) hnot
  have hall := organize_files_places mode root pillow files
    ⟨fs, tree, 0, 0, []⟩ hinv0 hplaced0 hkeep
  apply organize_files_inert
  · exact hrunnd
  · intro p hp
    obtain ⟨hpp, _⟩ := h2 p hp
    obtain ⟨f, hf, hfp⟩ := List.mem_map.mp hpp
    exact ⟨f, hf, hfp⟩
  · intro p hp f hf hfp
    apply hall f hf
    rw [hfp]
    exact (h2 p hp).2


/-- World of the C8 witness: one file, no collision on the way to `2021/`. -/
def c8wWorld : List FFile :=
  [⟨⟨["a".data], "photo.jpg".data⟩, Option.none, Option.none, some ⟨2021, 1, 1⟩⟩]

def c8wFiles : List FPath := [⟨["a".data], "photo.jpg".data⟩]

def c8wFiles2 : List FPath := [⟨["2021".data], "photo.jpg".data⟩]

theorem C8_witness :
    ((pathsOf c8wWorld).Nodup ∧ c8wFiles.Nodup
    ∧ (∀ p ∈ c8wFiles, p ∈ pathsOf c8wWorld ∧ isMediaPath p = true)
    ∧ (∀ p ∈ pathsOf c8wWorld, isMediaPath p = true → p ∈ c8wFiles)
    ∧ (∀ q ∈ (organize_files .year [] false false
        ⟨c8wWorld, .node [] [] [], 0, 0, []⟩ c8wFiles).trace, q.2.nm = q.1.nm)
    ∧ (∀ p ∈ c8wFiles2,
        p ∈ pathsOf (organize_files .year [] false false
          ⟨c8wWorld, .node [] [] [], 0, 0, []⟩ c8wFiles).fs ∧ isMediaPath p = true))
    ∧ organize_files .year [] false false
        ⟨(organize_files .year [] false false
            ⟨c8wWorld, .node [] [] [], 0, 0, []⟩ c8wFiles).fs,
          .node [] [] [], 0, 0, []⟩ c8wFiles2 =
      ⟨(organize_files .year [] false false
          ⟨c8wWorld, .node [] [] [], 0, 0, []⟩ c8wFiles).fs,
        .node [] [] [], 0, 0, []⟩ :=
  ⟨⟨by decide, by decide, by decide, by decide, by decide, by decide⟩,
    C8_second_run_idempotent .year [] false c8wWorld (.node [] [] [])
      (.node [] [] []) c8wFiles c8wFiles2 (by decide) (by decide) (by decide)
      (by decide) (by decide) (by decide)⟩

/-- World of the C8 counterexample: ten blockers named `2024_03.jpg`,
`2024_03_1.jpg`, ..., `2024_03_9.jpg` already sit in `2020/`; the target file
`x/2024_03.jpg` resolves (by mtime) to `2020/` as well and the collision loop
renames it to `2024_03_10.jpg` — whose stem now matches the
`YYYY_MM_DD` filename pattern. -/
def c8World : List FFile :=
  [⟨⟨["2020".data], "2024_03.jpg".data⟩, Option.none, Option.none, some ⟨2020, 1, 1⟩⟩,
   ⟨⟨["2020".data], "2024_03_1.jpg".data⟩, Option.none, Option.none, some ⟨2020, 1, 1⟩⟩,
   ⟨⟨["2020".data], "2024_03_2.jpg".data⟩, Option.none, Option.none, some ⟨2020, 1, 1⟩⟩,
   ⟨⟨["2020".data], "2024_03_3.jpg".data⟩, Option.none, Option.none, some ⟨2020, 1, 1⟩⟩,
   ⟨⟨["2020".data], "2024_03_4.jpg".data⟩, Option.none, Option.none, some ⟨2020, 1, 1⟩⟩,
   ⟨⟨["2020".data], "2024_03_5.jpg".data⟩, Option.none, Option.none, some ⟨2020, 1, 1⟩⟩,
   ⟨⟨["2020".data], "2024_03_6.jpg".data⟩, Option.none, Option.none, some ⟨2020, 1, 1⟩⟩,
   ⟨⟨["2020".data], "2024_03_7.jpg".data⟩, Option.none, Option.none, some ⟨2020, 1, 1⟩⟩,
   ⟨⟨["2020".data], "2024_03_8.jpg".data⟩, Option.none, Option.none, some ⟨2020, 1, 1⟩⟩,
   ⟨⟨["2020".data], "2024_03_9.jpg".data⟩, Option.none, Option.none, some ⟨2020, 1, 1⟩⟩,
   ⟨⟨["x".data], "2024_03.jpg".data⟩, Option.none, Option.none, some ⟨2020, 1, 1⟩⟩]

def c8Files : List FPath := pathsOf c8World

/-- C8 (counterexample to the claim as stated).  After the first organize run
over `c8World` (granularity `year`), the renamed file `2020/2024_03_10.jpg`
extracts the date 2024-03-10 from its new stem, so the second run over the
produced tree moves it again: the second run performs a move, not zero. -/
theorem C8_counterexample :
    (organize_files .year [] false false
      ⟨(organize_files .year [] false false
          ⟨c8World, .node [] [] [], 0, 0, []⟩ c8Files).fs,
        .node [] [] [], 0, 0, []⟩
      ((pathsOf (organize_files .year [] false false
          ⟨c8World, .node [] [] [], 0, 0, []⟩ c8Files).fs).filter
        isMediaPath)).trace ≠ [] := by
  decide

end MediaOrganiser
